import Mathlib

/-!
Verification of the orchestrator repository: the dependency-graph validator
and transitive-closure queries of the board view, the change-notification
event emitter, and the auto-mode concurrency scheduler described by the
specification.  Executable definitions are shallow embeddings of the
TypeScript source; the scheduler, whose implementation lives outside the
collected sources, is modelled from the specification where noted.
-/

namespace Orchestrator

/-- Feature status values used across the board and the scheduler. -/
inductive Status where
  | backlog
  | in_progress
  | waiting_approval
  | completed
  | verified
  | failed
  | archived
  deriving DecidableEq, Repr

/-- A feature record as consumed by the dependency validator and the
scheduler.  The title is optional: the circular-dependency error message
falls back to a truncated id when the title is missing or empty, mirroring
the JS falsy check on depFeature.title. -/
structure Feature where
  id : String
  title : Option String := none
  dependencies : List String := []
  status : Status := .backlog
  priority : Nat := 2
  createdAt : Nat := 0
  deriving DecidableEq, Repr

/-- Lookup of a feature by id through the Map that the source builds with
forEach and set: a later feature with the same id overwrites an earlier
one, so the fold keeps the last match. -/
def featureLookup (allFeatures : List Feature) (fid : String) : Option Feature :=
  allFeatures.foldl (fun acc f => if f.id = fid then some f else acc) none

/-- Depth-first search of hasPathBetweenFeatures: visited is the per-call
visited set (each recursive call receives a copy extended with the current
node), additionalDependencies is consulted only at the entry node (inner
calls pass the empty list, as in the source), and the general recursion of
the source is rendered with an explicit fuel argument; the callers pass
allFeatures.length + 1, shown sufficient below. -/
def hasPathBetweenFeatures (allFeatures : List Feature) (targetFeatureId : String) :
    Nat → String → List String → List String → Bool
  | 0, _, _, _ => false
  | fuel + 1, startFeatureId, additionalDependencies, visited =>
    if startFeatureId ∈ visited then false
    else
      match featureLookup allFeatures startFeatureId with
      | none => false
      | some f =>
        let deps := f.dependencies ++ additionalDependencies
        if targetFeatureId ∈ deps then true
        else deps.any fun depId =>
          hasPathBetweenFeatures allFeatures targetFeatureId fuel depId [] (startFeatureId :: visited)

/-- wouldCreateCircularDependency from the source: self-loop short-circuit,
then a reachability check from the new dependency back to the current
feature through the stored graph plus the other proposed edges. -/
def wouldCreateCircularDependency (currentFeatureId newDependencyId : String)
    (allFeatures : List Feature) (existingDependencies : List String := []) : Bool :=
  if currentFeatureId = newDependencyId then true
  else
    hasPathBetweenFeatures allFeatures currentFeatureId (allFeatures.length + 1)
      newDependencyId existingDependencies []

/-- Error string pushed for a self-dependency. -/
def selfDependencyError : String := "A feature cannot depend on itself"

/-- Error string pushed for duplicate entries in the proposed list. -/
def duplicateDependencyError : String := "Duplicate dependencies are not allowed"

/-- Display title used in the circular-dependency error: the first feature
with the id, its title when present and nonempty, else a truncated id. -/
def dependencyTitle (allFeatures : List Feature) (depId : String) : String :=
  match allFeatures.find? (fun f => f.id == depId) with
  | some f =>
    match f.title with
    | some t => if t = "" then "Feature " ++ depId.take 8 ++ "..." else t
    | none => "Feature " ++ depId.take 8 ++ "..."
  | none => "Feature " ++ depId.take 8 ++ "..."

/-- Error string pushed when a proposed dependency closes a cycle. -/
def circularDependencyError (allFeatures : List Feature) (depId : String) : String :=
  "Adding dependency \"" ++ dependencyTitle allFeatures depId ++
    "\" would create a circular dependency"

/-- Result record of validateDependencies. -/
structure ValidationResult where
  valid : Bool
  errors : List String
  deriving DecidableEq, Repr

/-- validateDependencies from the source: pushes the self-dependency error,
then the duplicate error (Set size versus array length, rendered through
dedup), then one circular error per offending proposed dependency in list
order (skipping the candidate itself, and passing the remaining proposed
ids as extra edges), and reports valid iff no error was pushed. -/
def validateDependencies (currentFeatureId : String) (dependencies : List String)
    (allFeatures : List Feature) : ValidationResult :=
  let selfErrors := if currentFeatureId ∈ dependencies then [selfDependencyError] else []
  let dupErrors :=
    if dependencies.dedup.length ≠ dependencies.length then [duplicateDependencyError] else []
  let circErrors :=
    (dependencies.filter fun depId =>
        depId != currentFeatureId &&
          wouldCreateCircularDependency currentFeatureId depId allFeatures
            (dependencies.filter fun i => i != depId)).map
      (circularDependencyError allFeatures)
  let errors := selfErrors ++ dupErrors ++ circErrors
  { valid := errors.isEmpty, errors := errors }

/-- Loop of collectDependencies over the dependency list of one feature:
a dependency already recorded is skipped, otherwise it is recorded and
recursed into (the recursive entry point is passed as the collect
argument), exactly as in the source. -/
def collectDependenciesList (collect : String → List String × List String → List String × List String) :
    List String → List String × List String → List String × List String
  | [], st => st
  | depId :: rest, st =>
    if depId ∈ st.2 then collectDependenciesList collect rest st
    else collectDependenciesList collect rest (collect depId (st.1, depId :: st.2))

/-- collectDependencies from getAllDependencies: the two mutable sets of
the source (visited, allDeps) are threaded as a state pair, and the
unbounded recursion is rendered with fuel; getAllDependencies below passes
a fuel shown sufficient for every input. -/
def collectDependencies (allFeatures : List Feature) :
    Nat → String → List String × List String → List String × List String
  | 0, _, st => st
  | fuel + 1, currentId, st =>
    if currentId ∈ st.1 then st
    else
      match featureLookup allFeatures currentId with
      | none => (currentId :: st.1, st.2)
      | some f =>
        collectDependenciesList (collectDependencies allFeatures fuel) f.dependencies
          (currentId :: st.1, st.2)

/-- All dependency ids occurring in the stored feature records; recursion
of the dependency walk only ever descends into this list, which bounds the
fuel needed. -/
def depUniverse (allFeatures : List Feature) : List String :=
  allFeatures.flatMap Feature.dependencies

/-- getAllDependencies from the source: runs the shared-state depth-first
collection from the given feature and returns the accumulated dependency
set. -/
def getAllDependencies (featureId : String) (allFeatures : List Feature) : List String :=
  (collectDependencies allFeatures ((featureId :: depUniverse allFeatures).length + 1)
    featureId ([], [])).2

/-- Loop of collectDependents over the feature list: every feature whose
dependencies mention the target and whose id is not yet recorded is added
and recursed into (the recursive entry point is passed as the collect
argument). -/
def collectDependentsList (collect : String → List String × List String → List String × List String)
    (targetId : String) :
    List Feature → List String × List String → List String × List String
  | [], st => st
  | f :: rest, st =>
    if targetId ∈ f.dependencies ∧ f.id ∉ st.2 then
      collectDependentsList collect targetId rest (collect f.id (st.1, f.id :: st.2))
    else collectDependentsList collect targetId rest st

/-- collectDependents from getAllDependents: scans the whole feature list
for direct dependents of the target, records them, and recurses; visited
and dependents are the two mutable sets of the source, threaded as state,
with fuel for the unbounded recursion. -/
def collectDependents (allFeatures : List Feature) :
    Nat → String → List String × List String → List String × List String
  | 0, _, st => st
  | fuel + 1, targetId, st =>
    if targetId ∈ st.1 then st
    else
      collectDependentsList (collectDependents allFeatures fuel) targetId allFeatures
        (targetId :: st.1, st.2)

/-- getAllDependents from the source: runs the shared-state depth-first
dependent collection from the given feature and returns the accumulated
set of dependent ids. -/
def getAllDependents (featureId : String) (allFeatures : List Feature) : List String :=
  (collectDependents allFeatures ((featureId :: allFeatures.map Feature.id).length + 1)
    featureId ([], [])).2

/-- One dependency edge as consulted through the feature Map (the last
feature with a given id wins): the edge set walked by
hasPathBetweenFeatures and getAllDependencies. -/
def depEdge (allFeatures : List Feature) (u v : String) : Prop :=
  ∃ f, featureLookup allFeatures u = some f ∧ v ∈ f.dependencies

/-- One dependency edge contributed by any feature occurrence in the list:
the edge set walked by getAllDependents. -/
def depEdgeAny (allFeatures : List Feature) (u v : String) : Prop :=
  ∃ f ∈ allFeatures, f.id = u ∧ v ∈ f.dependencies

/-- A concrete dependency walk: DepChain fs u l t holds when there is a
path u to t whose intermediate nodes are exactly l, each step following
the stored dependencies of the node under featureLookup. -/
inductive DepChain (allFeatures : List Feature) : String → List String → String → Prop where
  | single : ∀ {u t f}, featureLookup allFeatures u = some f → t ∈ f.dependencies →
      DepChain allFeatures u [] t
  | cons : ∀ {u v l t f}, featureLookup allFeatures u = some f → v ∈ f.dependencies →
      DepChain allFeatures v l t → DepChain allFeatures u (v :: l) t

/-- Reachability through one or more stored dependency edges, as walked
through the feature map. -/
def DepReach (allFeatures : List Feature) (u v : String) : Prop :=
  Relation.TransGen (depEdge allFeatures) u v

/-- Edge of the resulting graph of a proposed dependency write: out of the
candidate, the proposed edges; out of any other node, its stored edges. -/
def proposedEdge (currentFeatureId : String) (dependencies : List String)
    (allFeatures : List Feature) (u v : String) : Prop :=
  if u = currentFeatureId then v ∈ dependencies
  else ∃ f, featureLookup allFeatures u = some f ∧ v ∈ f.dependencies

/-- The resulting graph of a proposed write is a DAG when no node lies on a
directed cycle. -/
def proposedAcyclic (currentFeatureId : String) (dependencies : List String)
    (allFeatures : List Feature) : Prop :=
  ∀ u, ¬ Relation.TransGen (proposedEdge currentFeatureId dependencies allFeatures) u u

/-- State closure for the dependency walk at a visited node: every stored
dependency of the node has been both recorded and visited. -/
def depsClosed (fs : List Feature) (st : List String × List String) (u : String) : Prop :=
  ∀ f, featureLookup fs u = some f → ∀ d ∈ f.dependencies, d ∈ st.2 ∧ d ∈ st.1

/-- State closure for the dependent walk at a visited node: every feature
that directly depends on the node has had its id recorded and visited. -/
def dependentsClosed (fs : List Feature) (st : List String × List String) (u : String) : Prop :=
  ∀ f ∈ fs, u ∈ f.dependencies → f.id ∈ st.2 ∧ f.id ∈ st.1

/-- Modelled from the spec: outcome of one dispatch attempt; the Feature
Store write and the Agent Runner start may each throw (spec sections 4.2
and 7; the auto-mode scheduler implementation itself is not among the
collected sources, only its tests and callers are). -/
inductive DispatchOutcome where
  | ok
  | storeThrow
  | runnerThrow
  deriving DecidableEq, Repr

/-- Modelled from the spec: the scheduler state of section 3, one instance
per project: the auto-mode flag, the mutable concurrency limit, the active
set of running session ids, and the feature records of the Feature Store. -/
structure SchedulerState where
  enabled : Bool
  concurrencyLimit : Nat
  activeSet : List String
  features : List Feature
  deriving DecidableEq, Repr

/-- Modelled from the spec: a Feature Store status update. -/
def setStatus (fs : List Feature) (i : String) (s : Status) : List Feature :=
  fs.map fun f => if f.id = i then { f with status := s } else f

/-- Modelled from the spec: a dependency id is satisfied when the stored
feature with that id has status completed or verified (section 4.1); a
dependency id with no stored feature is not satisfied. -/
def depSatisfied (fs : List Feature) (d : String) : Bool :=
  match featureLookup fs d with
  | some f => decide (f.status = Status.completed ∨ f.status = Status.verified)
  | none => false

/-- Modelled from the spec: a feature is eligible iff it is in backlog,
every dependency is satisfied (vacuously so for an empty list), and it is
not already active (sections 4.1 and 4.2 step 3). -/
def eligible (st : SchedulerState) (f : Feature) : Bool :=
  decide (f.status = Status.backlog) && f.dependencies.all (depSatisfied st.features) &&
    decide (f.id ∉ st.activeSet)

/-- Modelled from the spec: dispatch order, priority ascending with ties
broken by createdAt ascending (section 4.2 step 4). -/
def dispatchBefore (f g : Feature) : Bool :=
  decide (f.priority < g.priority) ||
    (decide (f.priority = g.priority) && decide (f.createdAt < g.createdAt))

/-- Insertion step of the stable sort by (priority, createdAt). -/
def insertOrdered (f : Feature) : List Feature → List Feature
  | [] => [f]
  | g :: gs => if dispatchBefore g f then g :: insertOrdered f gs else f :: g :: gs

/-- Stable insertion sort ordering the eligible set for dispatch. -/
def sortFeatures : List Feature → List Feature
  | [] => []
  | f :: l => insertOrdered f (sortFeatures l)

/-- Modelled from the spec: the ordered eligible list of one scheduling
pass, truncated to the available slots, which are the concurrency limit
minus the active count (section 4.2 steps 2 to 5). -/
def dispatchList (st : SchedulerState) : List Feature :=
  (sortFeatures (st.features.filter (eligible st))).take
    (st.concurrencyLimit - st.activeSet.length)

/-- Modelled from the spec: dispatch the chosen features one after the
other.  On ok the store write and the runner start succeed and the feature
enters the active set as in progress; on storeThrow nothing was written;
on runnerThrow the store write went through and is then reverted, the
feature returning to backlog and leaving the active set.  Every
intermediate state is an observed instant and the pass continues past a
failure (section 4.2 step 5 and the error-handling paragraph). -/
def runDispatchList (oracle : String → DispatchOutcome) :
    List Feature → SchedulerState → SchedulerState × List SchedulerState
  | [], st => (st, [])
  | f :: rest, st =>
    match oracle f.id with
    | .ok =>
      let st1 := { st with features := setStatus st.features f.id Status.in_progress,
                           activeSet := f.id :: st.activeSet }
      let r := runDispatchList oracle rest st1
      (r.1, st1 :: r.2)
    | .storeThrow =>
      let r := runDispatchList oracle rest st
      (r.1, st :: r.2)
    | .runnerThrow =>
      let stMid := { st with features := setStatus st.features f.id Status.in_progress,
                             activeSet := f.id :: st.activeSet }
      let stRev := { stMid with
                     features := setStatus stMid.features f.id Status.backlog,
                     activeSet := stMid.activeSet.erase f.id }
      let r := runDispatchList oracle rest stRev
      (r.1, stMid :: stRev :: r.2)

/-- Modelled from the spec: one scheduling pass, sections 4.2 steps 1 to 5;
when auto mode is disabled nothing is dispatched, and a pass with no free
slot dispatches nothing because the dispatch list is empty. -/
def schedulePass (oracle : String → DispatchOutcome) (st : SchedulerState) :
    SchedulerState × List SchedulerState :=
  if st.enabled then runDispatchList oracle (dispatchList st) st else (st, [])

/-- Modelled from the spec: scheduler triggers, section 4.2 step 1 and the
control surface of section 4.3; each trigger carries the oracle saying
which store writes or runner starts would throw during the pass it fires. -/
inductive Trigger where
  | enable (oracle : String → DispatchOutcome)
  | disable
  | setConcurrency (n : Nat) (oracle : String → DispatchOutcome)
  | statusChange (i : String) (s : Status) (oracle : String → DispatchOutcome)
  | sessionDone (i : String) (success : Bool) (oracle : String → DispatchOutcome)

/-- Modelled from the spec: a terminal session event (section 4.2 steps 6
and 7): the feature leaves the active set and moves to waiting approval on
success, failed otherwise. -/
def completeSession (st : SchedulerState) (i : String) (success : Bool) : SchedulerState :=
  { st with
    features :=
      setStatus st.features i (if success then Status.waiting_approval else Status.failed),
    activeSet := st.activeSet.erase i }

/-- Modelled from the spec: apply one trigger, mutating the control state
and then running one scheduling pass; disable stops new dispatch without
touching in-flight sessions, and setConcurrency rejects non-positive
values (section 4.3). -/
def applyTrigger (t : Trigger) (st : SchedulerState) : SchedulerState × List SchedulerState :=
  match t with
  | .enable oracle =>
    let st1 := { st with enabled := true }
    let r := schedulePass oracle st1
    (r.1, st1 :: r.2)
  | .disable =>
    let st1 := { st with enabled := false }
    (st1, [st1])
  | .setConcurrency n oracle =>
    if 1 ≤ n then
      let st1 := { st with concurrencyLimit := n }
      let r := schedulePass oracle st1
      (r.1, st1 :: r.2)
    else (st, [st])
  | .statusChange i s oracle =>
    let st1 := { st with features := setStatus st.features i s }
    let r := schedulePass oracle st1
    (r.1, st1 :: r.2)
  | .sessionDone i success oracle =>
    let st1 := completeSession st i success
    let r := schedulePass oracle st1
    (r.1, st1 :: r.2)

/-- Modelled from the spec: run a trigger sequence from a state, returning
the final state and every observed state, the initial state and each
intermediate instant of each pass included. -/
def runTriggers : List Trigger → SchedulerState → SchedulerState × List SchedulerState
  | [], st => (st, [st])
  | t :: ts, st =>
    let r := applyTrigger t st
    let r2 := runTriggers ts r.1
    (r2.1, st :: (r.2 ++ r2.2))

/-- A trigger fixes the concurrency limit at k when any setConcurrency it
carries sets exactly k. -/
def limitFixed (k : Nat) : Trigger → Prop
  | .setConcurrency n _ => n = k
  | _ => True

/-- Number of features currently stored as in progress, the quantity the
end-to-end concurrency test reads back from disk. -/
def inProgressCount (st : SchedulerState) : Nat :=
  (st.features.filter fun f => decide (f.status = Status.in_progress)).length

/-- emit of createEventEmitter: call every currently subscribed callback
in order; a callback that throws is caught inside emit (the source logs
the error to the console, rendered here as the some case) and the
iteration continues, nothing propagating to the caller of emit. -/
def emit {E P : Type} (subscribers : List (E → P → Except String Unit)) (t : E) (p : P) :
    List (Option String) :=
  subscribers.map fun callback =>
    match callback t p with
    | .ok _ => none
    | .error e => some e

/-- Reference semantics of the same iteration without the catch: the first
subscriber that throws aborts the iteration and its error propagates. -/
def emitNoCatch {E P : Type} (subscribers : List (E → P → Except String Unit)) (t : E) (p : P) :
    Except String Unit :=
  match subscribers with
  | [] => .ok ()
  | cb :: rest =>
    match cb t p with
    | .ok _ => emitNoCatch rest t p
    | .error e => .error e

/-- Feature records of the duplicate-identifier counterexample: two records
share the id X, the first depending on B and the last (which wins the map
lookup) depending on nothing. -/
def dupFeatures : List Feature :=
  [{ id := "X", dependencies := ["B"] }, { id := "X" }, { id := "B" }]

/-- Feature records of the duplicate-proposal counterexample: A and B with
no stored dependencies. -/
def cexFeatures : List Feature := [{ id := "A" }, { id := "B" }]

/-- A two-feature stored cycle, used to exercise termination claims. -/
def cyclicFeatures : List Feature :=
  [{ id := "A", dependencies := ["B"] }, { id := "B", dependencies := ["A"] }]

/-- Initial board of the drain-and-refill scenario: auto mode off,
concurrency limit one, five independent backlog features created in the
order A, B, C, D, E with equal priority. -/
def drainInit : SchedulerState :=
  { enabled := false, concurrencyLimit := 1, activeSet := [],
    features :=
      [{ id := "A", status := Status.backlog, priority := 2, createdAt := 1 },
       { id := "B", status := Status.backlog, priority := 2, createdAt := 2 },
       { id := "C", status := Status.backlog, priority := 2, createdAt := 3 },
       { id := "D", status := Status.backlog, priority := 2, createdAt := 4 },
       { id := "E", status := Status.backlog, priority := 2, createdAt := 5 }] }

/-- Oracle under which every store write and runner start succeeds. -/
def okOracle : String → DispatchOutcome := fun _ => DispatchOutcome.ok

/-- Trigger sequence of the drain-and-refill scenario: auto mode turned on,
then each running session completing successfully in turn. -/
def drainTriggers : List Trigger :=
  [Trigger.enable okOracle, Trigger.sessionDone "A" true okOracle,
   Trigger.sessionDone "B" true okOracle, Trigger.sessionDone "C" true okOracle,
   Trigger.sessionDone "D" true okOracle, Trigger.sessionDone "E" true okOracle]

/-- Ids of the features currently stored as in progress, in board order. -/
def inProgressIds (st : SchedulerState) : List String :=
  (st.features.filter fun f => decide (f.status = Status.in_progress)).map Feature.id

/-- Ids of the features currently stored as waiting approval, in board
order. -/
def waitingIds (st : SchedulerState) : List String :=
  (st.features.filter fun f => decide (f.status = Status.waiting_approval)).map Feature.id

/-- Feature records with a single stored edge from A to B, used to witness
chain detection and the duality. -/
def chainFeatures : List Feature := [{ id := "A", dependencies := ["B"] }, { id := "B" }]

/-- Board used to witness C5: feature B depends on A, which is still in
backlog, so B must be skipped. -/
def c5State : SchedulerState :=
  { enabled := true, concurrencyLimit := 2, activeSet := [],
    features := [{ id := "A", status := Status.backlog, createdAt := 1 },
                 { id := "B", dependencies := ["A"], status := Status.backlog,
                   createdAt := 2 }] }

/-- Board used to witness C6: two independent backlog features. -/
def c6State : SchedulerState :=
  { enabled := true, concurrencyLimit := 2, activeSet := [],
    features := [{ id := "A", status := Status.backlog, createdAt := 1 },
                 { id := "B", status := Status.backlog, createdAt := 2 }] }

/-- Oracle used to witness C6: the runner start for A throws, everything
else succeeds. -/
def c6Oracle : String → DispatchOutcome :=
  fun i => if i = "A" then DispatchOutcome.runnerThrow else DispatchOutcome.ok

/-- Subscriber that always succeeds, used in the C9 witness. -/
def okSubscriber : Nat → Nat → Except String Unit := fun _ _ => Except.ok ()

/-- Subscriber that always throws, used in the C9 witness. -/
def boomSubscriber : Nat → Nat → Except String Unit := fun _ _ => Except.error "boom"

theorem featureLookup_foldl {fid : String} :
    ∀ (fs : List Feature) (acc : Option Feature) (f : Feature),
      fs.foldl (fun acc g => if g.id = fid then some g else acc) acc = some f →
      (f ∈ fs ∧ f.id = fid) ∨ acc = some f := by
  intro fs
  induction fs with
  | nil => intro acc f h0; exact Or.inr h0
  | cons g gs ih =>
    intro acc f h0
    simp only [List.foldl_cons] at h0
    rcases ih _ _ h0 with h1 | h1
    · exact Or.inl ⟨List.mem_cons_of_mem _ h1.1, h1.2⟩
    · by_cases hg : g.id = fid
      · simp only [hg, if_pos] at h1
        obtain rfl : g = f := by injection h1
        exact Or.inl ⟨List.mem_cons_self _ _, hg⟩
      · simp only [hg, if_neg, not_false_iff] at h1
        exact Or.inr h1

theorem featureLookup_some {allFeatures : List Feature} {fid : String} {f : Feature}
    (h : featureLookup allFeatures fid = some f) : f ∈ allFeatures ∧ f.id = fid := by
  rcases featureLookup_foldl allFeatures none f h with h1 | h1
  · exact h1
  · cases h1

theorem featureLookup_foldl_mem {fid : String} :
    ∀ (fs : List Feature) (acc : Option Feature),
      ((∃ g, acc = some g) ∨ fid ∈ fs.map Feature.id) →
      ∃ f, fs.foldl (fun acc g => if g.id = fid then some g else acc) acc = some f := by
  intro fs
  induction fs with
  | nil =>
    rintro acc (⟨g, rfl⟩ | h0)
    · exact ⟨g, rfl⟩
    · simp at h0
  | cons g gs ih =>
    intro acc h0
    simp only [List.foldl_cons]
    by_cases hg : g.id = fid
    · exact ih _ (Or.inl ⟨g, by simp [hg]⟩)
    · apply ih
      rcases h0 with ⟨x, rfl⟩ | h0
      · exact Or.inl ⟨x, by simp [hg]⟩
      · rcases List.mem_map.1 h0 with ⟨x, hx, hxid⟩
        rcases List.mem_cons.1 hx with rfl | hx
        · exact absurd hxid hg
        · exact Or.inr (List.mem_map.2 ⟨x, hx, hxid⟩)

theorem featureLookup_mem_ids {allFeatures : List Feature} {fid : String}
    (h : fid ∈ allFeatures.map Feature.id) : ∃ f, featureLookup allFeatures fid = some f :=
  featureLookup_foldl_mem allFeatures none (Or.inr h)

theorem featureLookup_nodup {allFeatures : List Feature} {f : Feature}
    (hnd : (allFeatures.map Feature.id).Nodup) (hf : f ∈ allFeatures) :
    featureLookup allFeatures f.id = some f := by
  obtain ⟨g, hg⟩ := featureLookup_mem_ids (List.mem_map_of_mem Feature.id hf)
  obtain ⟨hgmem, hgid⟩ := featureLookup_some hg
  have : g = f := List.inj_on_of_nodup_map hnd hgmem hf hgid
  exact this ▸ hg

theorem depChain_snoc {allFeatures : List Feature} {u b : String} {l : List String}
    (h : DepChain allFeatures u l b) :
    ∀ {f : Feature} {c : String}, featureLookup allFeatures b = some f → c ∈ f.dependencies →
      DepChain allFeatures u (l ++ [b]) c := by
  induction h with
  | single hl hm => intro f c hb hc; exact .cons hl hm (.single hb hc)
  | cons hl hm _ ih => intro f c hb hc; exact .cons hl hm (ih hb hc)

theorem transGen_iff_depChain {allFeatures : List Feature} {u t : String} :
    Relation.TransGen (depEdge allFeatures) u t ↔ ∃ l, DepChain allFeatures u l t := by
  constructor
  · intro h
    induction h with
    | single h0 =>
      obtain ⟨f, hl, hm⟩ := h0
      exact ⟨[], .single hl hm⟩
    | tail _ h0 ih =>
      obtain ⟨f, hl, hm⟩ := h0
      obtain ⟨l, hch⟩ := ih
      exact ⟨_, depChain_snoc hch hl hm⟩
  · rintro ⟨l, h⟩
    induction h with
    | single hl hm => exact .single ⟨_, hl, hm⟩
    | cons hl hm _ ih => exact .head ⟨_, hl, hm⟩ ih

theorem depChain_suffix {allFeatures : List Feature} {w t : String} {m : List String}
    (h : DepChain allFeatures w m t) :
    ∀ u ∈ w :: m, ∃ m2, DepChain allFeatures u m2 t ∧ (u :: m2) <:+ (w :: m) := by
  induction h with
  | single hl hm =>
    intro u hu
    rcases List.mem_singleton.1 hu with rfl
    exact ⟨[], .single hl hm, List.suffix_refl _⟩
  | @cons w v l t f hl hm hch ih =>
    intro u hu
    rcases List.mem_cons.1 hu with rfl | hu
    · exact ⟨v :: l, .cons hl hm hch, List.suffix_refl _⟩
    · obtain ⟨m2, hc2, hsuf⟩ := ih u hu
      exact ⟨m2, hc2, hsuf.trans (List.suffix_cons w (v :: l))⟩

theorem depChain_nodup {allFeatures : List Feature} {u t : String} {l : List String}
    (h : DepChain allFeatures u l t) :
    ∃ l2, DepChain allFeatures u l2 t ∧ (u :: l2).Nodup ∧ l2 ⊆ l := by
  induction h with
  | single hl hm => exact ⟨[], .single hl hm, by simp, by simp⟩
  | @cons w v l t f hl hm hch ih =>
    obtain ⟨l1, hc1, hnd1, hsub1⟩ := ih
    by_cases hw : w ∈ v :: l1
    · obtain ⟨m2, hc2, hsuf⟩ := depChain_suffix hc1 w hw
      refine ⟨m2, hc2, hsuf.sublist.nodup hnd1, ?_⟩
      intro x hx
      have : x ∈ v :: l1 := hsuf.sublist.subset (List.mem_cons_of_mem _ hx)
      rcases List.mem_cons.1 this with rfl | hx1
      · exact List.mem_cons_self _ _
      · exact List.mem_cons_of_mem _ (hsub1 hx1)
    · refine ⟨v :: l1, .cons hl hm hc1, List.nodup_cons.2 ⟨hw, hnd1⟩, ?_⟩
      intro x hx
      rcases List.mem_cons.1 hx with rfl | hx1
      · exact List.mem_cons_self _ _
      · exact List.mem_cons_of_mem _ (hsub1 hx1)

theorem depChain_avoid {allFeatures : List Feature} {u c : String} {l : List String}
    (h : DepChain allFeatures u l c) :
    ∃ l2, DepChain allFeatures u l2 c ∧ c ∉ l2 ∧ l2 ⊆ l := by
  induction h with
  | single hl hm => exact ⟨[], .single hl hm, by simp, by simp⟩
  | @cons w v l t f hl hm hch ih =>
    by_cases hv : v = t
    · subst hv
      exact ⟨[], .single hl hm, by simp, by simp⟩
    · obtain ⟨l1, hc1, hnc1, hsub1⟩ := ih
      refine ⟨v :: l1, .cons hl hm hc1, ?_, ?_⟩
      · intro hmem
        rcases List.mem_cons.1 hmem with h0 | h0
        · exact hv h0.symm
        · exact hnc1 h0
      · intro x hx
        rcases List.mem_cons.1 hx with rfl | hx1
        · exact List.mem_cons_self _ _
        · exact List.mem_cons_of_mem _ (hsub1 hx1)

theorem depChain_ids {allFeatures : List Feature} {u t : String} {l : List String}
    (h : DepChain allFeatures u l t) : (u :: l) ⊆ allFeatures.map Feature.id := by
  induction h with
  | single hl _ =>
    intro x hx
    rcases List.mem_singleton.1 hx with rfl
    obtain ⟨hmem, hid⟩ := featureLookup_some hl
    exact hid ▸ List.mem_map_of_mem Feature.id hmem
  | @cons w v l t f hl hm hch ih =>
    intro x hx
    rcases List.mem_cons.1 hx with rfl | hx1
    · obtain ⟨hmem, hid⟩ := featureLookup_some hl
      exact hid ▸ List.mem_map_of_mem Feature.id hmem
    · exact ih hx1

theorem hasPath_sound {allFeatures : List Feature} {t : String} :
    ∀ {fuel : Nat} {s : String} {visited : List String},
      hasPathBetweenFeatures allFeatures t fuel s [] visited = true →
      ∃ l, DepChain allFeatures s l t := by
  intro fuel
  induction fuel with
  | zero => intro s visited h; simp [hasPathBetweenFeatures] at h
  | succ n ih =>
    intro s visited h
    simp only [hasPathBetweenFeatures] at h
    by_cases hv : s ∈ visited
    · simp [hv] at h
    · rw [if_neg hv] at h
      cases hl : featureLookup allFeatures s with
      | none => rw [hl] at h; simp at h
      | some f =>
        rw [hl] at h
        simp only [List.append_nil] at h
        by_cases ht : t ∈ f.dependencies
        · exact ⟨[], .single hl ht⟩
        · rw [if_neg ht] at h
          obtain ⟨d, hd, hrec⟩ := List.any_eq_true.1 h
          obtain ⟨l, hc⟩ := ih hrec
          exact ⟨d :: l, .cons hl hd hc⟩

theorem hasPath_sound_entry {allFeatures : List Feature} {t s : String}
    {addl visited : List String} {fuel : Nat}
    (h : hasPathBetweenFeatures allFeatures t fuel s addl visited = true) :
    (∃ l, DepChain allFeatures s l t) ∨ t ∈ addl ∨
      ∃ a ∈ addl, ∃ l, DepChain allFeatures a l t := by
  cases fuel with
  | zero => simp [hasPathBetweenFeatures] at h
  | succ n =>
    simp only [hasPathBetweenFeatures] at h
    by_cases hv : s ∈ visited
    · simp [hv] at h
    · rw [if_neg hv] at h
      cases hl : featureLookup allFeatures s with
      | none => rw [hl] at h; simp at h
      | some f =>
        rw [hl] at h
        simp only [] at h
        by_cases ht : t ∈ f.dependencies ++ addl
        · rcases List.mem_append.1 ht with ht1 | ht1
          · exact Or.inl ⟨[], .single hl ht1⟩
          · exact Or.inr (Or.inl ht1)
        · rw [if_neg ht] at h
          obtain ⟨a, ha, hrec⟩ := List.any_eq_true.1 h
          obtain ⟨l, hc⟩ := hasPath_sound hrec
          rcases List.mem_append.1 ha with ha1 | ha1
          · exact Or.inl ⟨a :: l, .cons hl ha1 hc⟩
          · exact Or.inr (Or.inr ⟨a, ha1, l, hc⟩)

theorem hasPath_complete {allFeatures : List Feature} {t : String} {l : List String} {s : String}
    (hch : DepChain allFeatures s l t) :
    ∀ {visited addl : List String} {fuel : Nat},
      (s :: l).Nodup → (∀ x ∈ s :: l, x ∉ visited) → l.length + 1 ≤ fuel →
      hasPathBetweenFeatures allFeatures t fuel s addl visited = true := by
  induction hch with
  | @single s t f hl hm =>
    intro visited addl fuel _ hdis hfuel
    obtain ⟨n, rfl⟩ : ∃ n, fuel = n + 1 := ⟨fuel - 1, by omega⟩
    simp only [hasPathBetweenFeatures]
    rw [if_neg (hdis s (List.mem_cons_self _ _)), hl]
    simp only []
    rw [if_pos (List.mem_append_left addl hm)]
  | @cons s v l0 t f hl hm hch0 ih =>
    intro visited addl fuel hnd hdis hfuel
    obtain ⟨n, rfl⟩ : ∃ n, fuel = n + 1 := ⟨fuel - 1, by omega⟩
    simp only [hasPathBetweenFeatures]
    rw [if_neg (hdis s (List.mem_cons_self _ _)), hl]
    simp only []
    by_cases ht : t ∈ f.dependencies ++ addl
    · rw [if_pos ht]
    · rw [if_neg ht]
      apply List.any_eq_true.2
      refine ⟨v, List.mem_append_left addl hm, ?_⟩
      apply ih (List.nodup_cons.1 hnd).2
      · intro x hx
        intro hmem
        rcases List.mem_cons.1 hmem with rfl | hmem1
        · exact (List.nodup_cons.1 hnd).1 hx
        · exact hdis x (List.mem_cons_of_mem _ hx) hmem1
      · simpa using Nat.succ_le_succ_iff.1 hfuel

theorem hasPath_mono {allFeatures : List Feature} {t : String} :
    ∀ {fuel fuel2 : Nat} {s : String} {addl visited : List String}, fuel ≤ fuel2 →
      hasPathBetweenFeatures allFeatures t fuel s addl visited = true →
      hasPathBetweenFeatures allFeatures t fuel2 s addl visited = true := by
  intro fuel
  induction fuel with
  | zero => intro fuel2 s addl visited _ h; simp [hasPathBetweenFeatures] at h
  | succ n ih =>
    intro fuel2 s addl visited hle h
    obtain ⟨m, rfl⟩ : ∃ m, fuel2 = m + 1 := ⟨fuel2 - 1, by omega⟩
    simp only [hasPathBetweenFeatures] at h ⊢
    by_cases hv : s ∈ visited
    · simp [hv] at h
    · rw [if_neg hv] at h ⊢
      cases hl : featureLookup allFeatures s with
      | none => rw [hl] at h; simp at h
      | some f =>
        rw [hl] at h
        simp only [] at h ⊢
        by_cases ht : t ∈ f.dependencies ++ addl
        · rw [if_pos ht]
        · rw [if_neg ht] at h ⊢
          obtain ⟨d, hd, hrec⟩ := List.any_eq_true.1 h
          exact List.any_eq_true.2 ⟨d, hd, ih (Nat.succ_le_succ_iff.1 hle) hrec⟩

theorem hasPath_sufficient {allFeatures : List Feature} {t s : String}
    {addl : List String} {fuel : Nat}
    (h : hasPathBetweenFeatures allFeatures t fuel s addl [] = true) :
    hasPathBetweenFeatures allFeatures t (allFeatures.length + 1) s addl [] = true := by
  obtain ⟨n, rfl⟩ : ∃ n, fuel = n + 1 := by
    cases fuel with
    | zero => simp [hasPathBetweenFeatures] at h
    | succ n => exact ⟨n, rfl⟩
  simp only [hasPathBetweenFeatures] at h ⊢
  rw [if_neg (List.not_mem_nil s)] at h ⊢
  cases hl : featureLookup allFeatures s with
  | none => rw [hl] at h; simp at h
  | some f =>
    rw [hl] at h
    simp only [] at h ⊢
    by_cases ht : t ∈ f.dependencies ++ addl
    · rw [if_pos ht]
    · rw [if_neg ht] at h ⊢
      obtain ⟨a, ha, hrec⟩ := List.any_eq_true.1 h
      obtain ⟨l, hc0⟩ := hasPath_sound hrec
      obtain ⟨l2, hc2, hnd2, _⟩ := depChain_nodup hc0
      apply List.any_eq_true.2
      by_cases hs : s ∈ a :: l2
      · obtain ⟨m2, hcm, hsuf⟩ := depChain_suffix hc2 s hs
        have hndm : (s :: m2).Nodup := hsuf.sublist.nodup hnd2
        cases hcm with
        | single hl2 hm2 =>
          rw [hl] at hl2
          obtain rfl : f = _ := (Option.some.inj hl2)
          exact absurd (List.mem_append_left addl hm2) ht
        | @cons _ v l3 _ f2 hl2 hm2 hc3 =>
          rw [hl] at hl2
          obtain rfl : f = f2 := Option.some.inj hl2
          refine ⟨v, List.mem_append_left addl hm2, ?_⟩
          have hids : (s :: v :: l3) ⊆ allFeatures.map Feature.id :=
            depChain_ids (.cons hl hm2 hc3)
          have hlen : (s :: v :: l3).length ≤ allFeatures.length := by
            have := (List.subperm_of_subset hndm hids).length_le
            simpa using this
          apply hasPath_complete hc3 (List.nodup_cons.1 hndm).2
          · intro x hx hmem
            rcases List.mem_cons.1 hmem with rfl | hmem1
            · exact (List.nodup_cons.1 hndm).1 hx
            · simp at hmem1
          · simp only [List.length_cons] at hlen
            omega
      · refine ⟨a, ha, ?_⟩
        have hids : (a :: l2) ⊆ allFeatures.map Feature.id := depChain_ids hc2
        have hlen : (a :: l2).length ≤ allFeatures.length := by
          have := (List.subperm_of_subset hnd2 hids).length_le
          simpa using this
        apply hasPath_complete hc2 hnd2
        · intro x hx hmem
          rcases List.mem_cons.1 hmem with rfl | hmem1
          · exact hs hx
          · simp at hmem1
        · simp only [List.length_cons] at hlen
          omega

theorem hasPath_stable {allFeatures : List Feature} {t s : String} {addl : List String}
    {fuel : Nat} (hfuel : allFeatures.length + 1 ≤ fuel) :
    hasPathBetweenFeatures allFeatures t fuel s addl [] =
      hasPathBetweenFeatures allFeatures t (allFeatures.length + 1) s addl [] := by
  by_cases hR : hasPathBetweenFeatures allFeatures t (allFeatures.length + 1) s addl [] = true
  · rw [hR, hasPath_mono hfuel hR]
  · by_cases hLf : hasPathBetweenFeatures allFeatures t fuel s addl [] = true
    · exact absurd (hasPath_sufficient hLf) hR
    · rw [Bool.not_eq_true] at hR hLf
      rw [hR, hLf]

theorem depChain_lift_proposed {c : String} {deps : List String} {allFeatures : List Feature}
    {u : String} {l : List String} (h : DepChain allFeatures u l c) :
    c ∉ l → u ≠ c → Relation.TransGen (proposedEdge c deps allFeatures) u c := by
  induction h with
  | single hl hm =>
    intro _ hu
    refine .single ?_
    rw [proposedEdge, if_neg hu]
    exact ⟨_, hl, hm⟩
  | @cons u v l t f hl hm hch ih =>
    intro hc hu
    have hvc : v ≠ t := fun h0 => hc (h0 ▸ List.mem_cons_self _ _)
    have hcl : t ∉ l := fun h0 => hc (List.mem_cons_of_mem _ h0)
    refine .head ?_ (ih hcl hvc)
    rw [proposedEdge, if_neg hu]
    exact ⟨_, hl, hm⟩

theorem proposed_cycle_of_reach {c d : String} {deps : List String} {allFeatures : List Feature}
    (hd : d ∈ deps) (h : ∃ l, DepChain allFeatures d l c) :
    Relation.TransGen (proposedEdge c deps allFeatures) c c := by
  by_cases hdc : d = c
  · refine .single ?_
    rw [proposedEdge, if_pos rfl]
    exact hdc ▸ hd
  · obtain ⟨l, hch⟩ := h
    obtain ⟨l2, hch2, hnc, _⟩ := depChain_avoid hch
    refine .head ?_ (depChain_lift_proposed hch2 hnc hdc)
    rw [proposedEdge, if_pos rfl]
    exact hd

theorem validateDependencies_errors (c : String) (deps : List String) (fs : List Feature) :
    (validateDependencies c deps fs).errors =
      ((if c ∈ deps then [selfDependencyError] else []) ++
          (if deps.dedup.length ≠ deps.length then [duplicateDependencyError] else [])) ++
        (deps.filter fun d => d != c && wouldCreateCircularDependency c d fs
            (deps.filter fun i => i != d)).map (circularDependencyError fs) := rfl

theorem validateDependencies_valid (c : String) (deps : List String) (fs : List Feature) :
    (validateDependencies c deps fs).valid = (validateDependencies c deps fs).errors.isEmpty :=
  rfl

theorem dedup_length_eq_iff {deps : List String} :
    deps.dedup.length = deps.length ↔ deps.Nodup := by
  constructor
  · intro h
    have := (List.dedup_sublist deps).eq_of_length h
    exact this ▸ deps.nodup_dedup
  · intro h
    rw [List.dedup_eq_self.2 h]

theorem circularDependencyError_length (fs : List Feature) (d : String) :
    (circularDependencyError fs d).length = 55 + (dependencyTitle fs d).length := by
  unfold circularDependencyError
  rw [String.length_append, String.length_append]
  have h1 : ("Adding dependency \"" : String).length = 19 := rfl
  have h2 : ("\" would create a circular dependency" : String).length = 36 := rfl
  omega

theorem circErr_ne_selfErr (fs : List Feature) (d : String) :
    circularDependencyError fs d ≠ selfDependencyError := by
  intro h
  have := congrArg String.length h
  rw [circularDependencyError_length] at this
  have h1 : selfDependencyError.length = 33 := rfl
  omega

theorem circErr_ne_dupErr (fs : List Feature) (d : String) :
    circularDependencyError fs d ≠ duplicateDependencyError := by
  intro h
  have := congrArg String.length h
  rw [circularDependencyError_length] at this
  have h1 : duplicateDependencyError.length = 38 := rfl
  omega

theorem selfErr_ne_dupErr : selfDependencyError ≠ duplicateDependencyError := by decide

theorem selfErr_mem_iff (c : String) (deps : List String) (fs : List Feature) :
    selfDependencyError ∈ (validateDependencies c deps fs).errors ↔ c ∈ deps := by
  rw [validateDependencies_errors]
  constructor
  · intro h
    rcases List.mem_append.1 h with h1 | h1
    · rcases List.mem_append.1 h1 with h2 | h2
      · by_cases hc : c ∈ deps
        · exact hc
        · rw [if_neg hc] at h2; simp at h2
      · by_cases hd : deps.dedup.length ≠ deps.length
        · rw [if_pos hd] at h2
          exact absurd (List.mem_singleton.1 h2) selfErr_ne_dupErr
        · rw [if_neg hd] at h2; simp at h2
    · obtain ⟨d, _, hd2⟩ := List.mem_map.1 h1
      exact absurd hd2 (circErr_ne_selfErr fs d)
  · intro h
    rw [if_pos h]
    exact List.mem_append_left _ (List.mem_append_left _ (List.mem_singleton.2 rfl))

theorem dupErr_mem_iff (c : String) (deps : List String) (fs : List Feature) :
    duplicateDependencyError ∈ (validateDependencies c deps fs).errors ↔ ¬ deps.Nodup := by
  rw [validateDependencies_errors]
  constructor
  · intro h
    rcases List.mem_append.1 h with h1 | h1
    · rcases List.mem_append.1 h1 with h2 | h2
      · by_cases hc : c ∈ deps
        · rw [if_pos hc] at h2
          exact absurd (List.mem_singleton.1 h2).symm selfErr_ne_dupErr
        · rw [if_neg hc] at h2; simp at h2
      · by_cases hd : deps.dedup.length ≠ deps.length
        · exact fun hnd => hd (dedup_length_eq_iff.2 hnd)
        · rw [if_neg hd] at h2; simp at h2
    · obtain ⟨d, _, hd2⟩ := List.mem_map.1 h1
      exact absurd hd2 (circErr_ne_dupErr fs d)
  · intro h
    have hd : deps.dedup.length ≠ deps.length := fun h0 => h (dedup_length_eq_iff.1 h0)
    rw [if_pos hd]
    exact List.mem_append_left _
      (List.mem_append_right _ (List.mem_singleton.2 rfl))

theorem validate_false_of_errors_ne_nil {c : String} {deps : List String} {fs : List Feature}
    (h : (validateDependencies c deps fs).errors ≠ []) :
    (validateDependencies c deps fs).valid = false := by
  rw [validateDependencies_valid]
  cases h0 : (validateDependencies c deps fs).errors with
  | nil => exact absurd h0 h
  | cons a l => rfl

theorem validate_false_of_self {c : String} {deps : List String} {fs : List Feature}
    (h : c ∈ deps) : (validateDependencies c deps fs).valid = false := by
  apply validate_false_of_errors_ne_nil
  intro h0
  have := selfErr_mem_iff c deps fs |>.2 h
  rw [h0] at this
  simp at this

theorem validate_false_of_reach {c : String} {deps : List String} {fs : List Feature}
    (h : ∃ d ∈ deps, DepReach fs d c) : (validateDependencies c deps fs).valid = false := by
  obtain ⟨d, hd, hreach⟩ := h
  by_cases hdc : d = c
  · exact validate_false_of_self (hdc ▸ hd)
  · apply validate_false_of_errors_ne_nil
    rw [validateDependencies_errors]
    obtain ⟨l, hch⟩ := transGen_iff_depChain.1 hreach
    obtain ⟨l2, hch2, hnd2, _⟩ := depChain_nodup hch
    have hids : (d :: l2) ⊆ fs.map Feature.id := depChain_ids hch2
    have hlen : (d :: l2).length ≤ fs.length := by
      have := (List.subperm_of_subset hnd2 hids).length_le
      simpa using this
    have hwc : wouldCreateCircularDependency c d fs (deps.filter fun i => i != d) = true := by
      rw [wouldCreateCircularDependency, if_neg (fun h0 => hdc h0.symm)]
      apply hasPath_complete hch2 hnd2 (by simp)
      simp only [List.length_cons] at hlen
      omega
    have hmem : d ∈ deps.filter fun x => x != c && wouldCreateCircularDependency c x fs
        (deps.filter fun i => i != x) := by
      rw [List.mem_filter]
      refine ⟨hd, ?_⟩
      rw [Bool.and_eq_true, hwc]
      exact ⟨by simpa using hdc, rfl⟩
    intro h0
    rcases List.append_eq_nil.1 h0 with ⟨_, h3⟩
    rw [List.map_eq_nil_iff] at h3
    rw [h3] at hmem
    simp at hmem

theorem validate_true_of_acyclic {c : String} {deps : List String} {fs : List Feature}
    (h1 : c ∉ deps) (h2 : deps.Nodup) (h3 : proposedAcyclic c deps fs) :
    validateDependencies c deps fs = { valid := true, errors := [] } := by
  have herr : (validateDependencies c deps fs).errors = [] := by
    rw [validateDependencies_errors, if_neg h1,
      if_neg (fun h0 => h0 (dedup_length_eq_iff.2 h2))]
    simp only [List.nil_append]
    rw [List.map_eq_nil_iff]
    apply List.filter_eq_nil_iff.2
    intro d hd
    rw [Bool.and_eq_true, not_and]
    intro _
    intro hwc
    rw [wouldCreateCircularDependency] at hwc
    by_cases hcd : c = d
    · exact h1 (hcd ▸ hd)
    · rw [if_neg hcd] at hwc
      rcases hasPath_sound_entry hwc with h4 | h4 | h4
      · exact h3 c (proposed_cycle_of_reach hd h4)
      · exact h1 (List.mem_filter.1 h4).1
      · obtain ⟨a, ha, hch⟩ := h4
        exact h3 c (proposed_cycle_of_reach (List.mem_filter.1 ha).1 hch)
  have hval : (validateDependencies c deps fs).valid = true := by
    rw [validateDependencies_valid, herr]
    rfl
  cases hres : validateDependencies c deps fs
  rw [hres] at herr hval
  simp only at herr hval
  rw [herr, hval]

theorem collectDependenciesList_mono
    (collect : String → List String × List String → List String × List String)
    (hc : ∀ d st, st.1 ⊆ (collect d st).1 ∧ st.2 ⊆ (collect d st).2) :
    ∀ (ds : List String) (st : List String × List String),
      st.1 ⊆ (collectDependenciesList collect ds st).1 ∧
        st.2 ⊆ (collectDependenciesList collect ds st).2 := by
  intro ds
  induction ds with
  | nil => intro st; exact ⟨List.Subset.refl _, List.Subset.refl _⟩
  | cons d rest ih =>
    intro st
    simp only [collectDependenciesList]
    by_cases hd : d ∈ st.2
    · rw [if_pos hd]; exact ih st
    · rw [if_neg hd]
      obtain ⟨h1, h2⟩ := hc d (st.1, d :: st.2)
      obtain ⟨h3, h4⟩ := ih (collect d (st.1, d :: st.2))
      exact ⟨h1.trans h3, ((List.subset_cons_self d st.2).trans h2).trans h4⟩

theorem collectDependencies_mono (fs : List Feature) :
    ∀ (fuel : Nat) (cur : String) (st : List String × List String),
      st.1 ⊆ (collectDependencies fs fuel cur st).1 ∧
        st.2 ⊆ (collectDependencies fs fuel cur st).2 := by
  intro fuel
  induction fuel with
  | zero => intro cur st; exact ⟨List.Subset.refl _, List.Subset.refl _⟩
  | succ n ih =>
    intro cur st
    simp only [collectDependencies]
    by_cases hv : cur ∈ st.1
    · rw [if_pos hv]; exact ⟨List.Subset.refl _, List.Subset.refl _⟩
    · rw [if_neg hv]
      cases hl : featureLookup fs cur with
      | none => exact ⟨List.subset_cons_self _ _, List.Subset.refl _⟩
      | some f =>
        have h0 := collectDependenciesList_mono (collectDependencies fs n)
          (fun d st => ih d st) f.dependencies (cur :: st.1, st.2)
        exact ⟨(List.subset_cons_self _ _).trans h0.1, h0.2⟩

theorem depsClosed_mono {fs : List Feature} {st st2 : List String × List String} {u : String}
    (h : depsClosed fs st u) (h1 : st.1 ⊆ st2.1) (h2 : st.2 ⊆ st2.2) :
    depsClosed fs st2 u := by
  intro f hf d hd
  obtain ⟨ha, hb⟩ := h f hf d hd
  exact ⟨h2 ha, h1 hb⟩

theorem collectDependencies_closed {fs : List Feature} {U : List String}
    (hU : ∀ f ∈ fs, ∀ d ∈ f.dependencies, d ∈ U) :
    ∀ (fuel : Nat) (cur : String) (st : List String × List String),
      cur ∈ U →
      (U.toFinset \ st.1.toFinset).card < fuel →
      (∀ x ∈ st.2, x ∈ st.1 ∨ x = cur) →
      cur ∈ (collectDependencies fs fuel cur st).1 ∧
        (∀ x ∈ (collectDependencies fs fuel cur st).2,
          x ∈ (collectDependencies fs fuel cur st).1) ∧
        (∀ u ∈ (collectDependencies fs fuel cur st).1, u ∉ st.1 →
          depsClosed fs (collectDependencies fs fuel cur st) u) := by
  intro fuel
  induction fuel with
  | zero =>
    intro cur st _ hef _
    exact absurd hef (by omega)
  | succ n ih =>
    have hlist : ∀ (ds : List String) (st : List String × List String),
        (∀ d ∈ ds, d ∈ U) →
        (U.toFinset \ st.1.toFinset).card < n →
        (∀ x ∈ st.2, x ∈ st.1) →
        (∀ d ∈ ds,
            d ∈ (collectDependenciesList (collectDependencies fs n) ds st).2 ∧
              d ∈ (collectDependenciesList (collectDependencies fs n) ds st).1) ∧
          (∀ x ∈ (collectDependenciesList (collectDependencies fs n) ds st).2,
            x ∈ (collectDependenciesList (collectDependencies fs n) ds st).1) ∧
          (∀ u ∈ (collectDependenciesList (collectDependencies fs n) ds st).1, u ∉ st.1 →
            depsClosed fs (collectDependenciesList (collectDependencies fs n) ds st) u) := by
      intro ds
      induction ds with
      | nil =>
        intro st _ _ hDV
        refine ⟨by simp, ?_, ?_⟩
        · intro x hx; exact hDV x hx
        · intro u hu hnu
          exact absurd hu hnu
      | cons d rest ihl =>
        intro st hds hef hDV
        simp only [collectDependenciesList]
        by_cases hd : d ∈ st.2
        · rw [if_pos hd]
          obtain ⟨hl1, hl2, hl3⟩ := ihl st (fun x hx => hds x (List.mem_cons_of_mem _ hx)) hef hDV
          have hmono := collectDependenciesList_mono (collectDependencies fs n)
            (fun c st0 => collectDependencies_mono fs n c st0) rest st
          refine ⟨?_, hl2, hl3⟩
          intro d2 hd2
          rcases List.mem_cons.1 hd2 with rfl | hd2
          · exact ⟨hmono.2 hd, hmono.1 (hDV d2 hd)⟩
          · exact hl1 d2 hd2
        · rw [if_neg hd]
          have hnode := ih d (st.1, d :: st.2) (hds d (List.mem_cons_self _ _)) hef
            (by
              intro x hx
              rcases List.mem_cons.1 hx with rfl | hx
              · exact Or.inr rfl
              · exact Or.inl (hDV x hx))
          obtain ⟨hn1, hn2, hn3⟩ := hnode
          have hmonoc := collectDependencies_mono fs n d (st.1, d :: st.2)
          have hefc : (U.toFinset \
              (collectDependencies fs n d (st.1, d :: st.2)).1.toFinset).card < n := by
            apply lt_of_le_of_lt ?_ hef
            apply Finset.card_le_card
            apply Finset.sdiff_subset_sdiff (Finset.Subset.refl _)
            intro x hx
            rw [List.mem_toFinset] at hx ⊢
            exact hmonoc.1 hx
          obtain ⟨hl1, hl2, hl3⟩ := ihl (collectDependencies fs n d (st.1, d :: st.2))
            (fun x hx => hds x (List.mem_cons_of_mem _ hx)) hefc hn2
          have hmonoL := collectDependenciesList_mono (collectDependencies fs n)
            (fun c st0 => collectDependencies_mono fs n c st0) rest
            (collectDependencies fs n d (st.1, d :: st.2))
          refine ⟨?_, hl2, ?_⟩
          · intro d2 hd2
            rcases List.mem_cons.1 hd2 with rfl | hd2
            · exact ⟨hmonoL.2 (hmonoc.2 (List.mem_cons_self _ _)), hmonoL.1 hn1⟩
            · exact hl1 d2 hd2
          · intro u hu hnu
            by_cases huc : u ∈ (collectDependencies fs n d (st.1, d :: st.2)).1
            · exact depsClosed_mono (hn3 u huc hnu) hmonoL.1 hmonoL.2
            · exact hl3 u hu huc
    intro cur st hcur hef hDVc
    simp only [collectDependencies]
    by_cases hv : cur ∈ st.1
    · rw [if_pos hv]
      refine ⟨hv, ?_, ?_⟩
      · intro x hx
        rcases hDVc x hx with h0 | rfl
        · exact h0
        · exact hv
      · intro u hu hnu
        exact absurd hu hnu
    · rw [if_neg hv]
      have hcard : (U.toFinset \ (cur :: st.1).toFinset).card <
          (U.toFinset \ st.1.toFinset).card := by
        apply Finset.card_lt_card
        rw [Finset.ssubset_def]
        constructor
        · intro x hx
          simp only [Finset.mem_sdiff, List.mem_toFinset, List.mem_cons, not_or] at hx
          simp only [Finset.mem_sdiff, List.mem_toFinset]
          exact ⟨hx.1, hx.2.2⟩
        · intro hcon
          have h1 : cur ∈ U.toFinset \ st.1.toFinset := by
            simp only [Finset.mem_sdiff, List.mem_toFinset]
            exact ⟨hcur, hv⟩
          have h2 := hcon h1
          simp only [Finset.mem_sdiff, List.mem_toFinset, List.mem_cons] at h2
          exact h2.2 (Or.inl trivial)
      have hefc : (U.toFinset \ (cur :: st.1).toFinset).card < n := by omega
      cases hl : featureLookup fs cur with
      | none =>
        refine ⟨List.mem_cons_self _ _, ?_, ?_⟩
        · intro x hx
          rcases hDVc x hx with h0 | rfl
          · exact List.mem_cons_of_mem _ h0
          · exact List.mem_cons_self _ _
        · intro u hu hnu
          have : u = cur := by
            rcases List.mem_cons.1 hu with rfl | h0
            · rfl
            · exact absurd h0 hnu
          subst this
          intro f hf
          rw [hl] at hf
          cases hf
      | some f =>
        obtain ⟨hfmem, _⟩ := featureLookup_some hl
        obtain ⟨hl1, hl2, hl3⟩ := hlist f.dependencies (cur :: st.1, st.2)
          (fun d hd => hU f hfmem d hd) hefc
          (by
            intro x hx
            rcases hDVc x hx with h0 | rfl
            · exact List.mem_cons_of_mem _ h0
            · exact List.mem_cons_self _ _)
        have hmonoL := collectDependenciesList_mono (collectDependencies fs n)
          (fun c st0 => collectDependencies_mono fs n c st0) f.dependencies (cur :: st.1, st.2)
        refine ⟨hmonoL.1 (List.mem_cons_self _ _), hl2, ?_⟩
        intro u hu hnu
        by_cases huc : u = cur
        · subst huc
          intro f2 hf2
          rw [hl] at hf2
          obtain rfl : f = f2 := Option.some.inj hf2
          intro d hd
          exact hl1 d hd
        · apply hl3 u hu
          intro h0
          rcases List.mem_cons.1 h0 with h1 | h1
          · exact huc h1
          · exact hnu h1

theorem collectDependencies_sound {fs : List Feature} {root : String} :
    ∀ (fuel : Nat) (cur : String) (st : List String × List String),
      (∀ x ∈ st.2, DepReach fs root x) →
      (cur = root ∨ DepReach fs root cur) →
      ∀ x ∈ (collectDependencies fs fuel cur st).2, DepReach fs root x := by
  intro fuel
  induction fuel with
  | zero => intro cur st hD _ x hx; exact hD x hx
  | succ n ih =>
    have hlist : ∀ (ds : List String) (st : List String × List String),
        (∀ x ∈ st.2, DepReach fs root x) →
        (∀ d ∈ ds, DepReach fs root d) →
        ∀ x ∈ (collectDependenciesList (collectDependencies fs n) ds st).2,
          DepReach fs root x := by
      intro ds
      induction ds with
      | nil => intro st hD _ x hx; exact hD x hx
      | cons d rest ihl =>
        intro st hD hds
        simp only [collectDependenciesList]
        by_cases hd : d ∈ st.2
        · rw [if_pos hd]
          exact ihl st hD (fun x hx => hds x (List.mem_cons_of_mem _ hx))
        · rw [if_neg hd]
          apply ihl
          · apply ih d (st.1, d :: st.2)
            · intro x hx
              rcases List.mem_cons.1 hx with rfl | hx
              · exact hds x (List.mem_cons_self _ _)
              · exact hD x hx
            · exact Or.inr (hds d (List.mem_cons_self _ _))
          · exact fun x hx => hds x (List.mem_cons_of_mem _ hx)
    intro cur st hD hcur
    simp only [collectDependencies]
    by_cases hv : cur ∈ st.1
    · rw [if_pos hv]; exact hD
    · rw [if_neg hv]
      cases hl : featureLookup fs cur with
      | none => exact hD
      | some f =>
        apply hlist f.dependencies (cur :: st.1, st.2) hD
        intro d hd
        rcases hcur with rfl | hcur
        · exact Relation.TransGen.single ⟨f, hl, hd⟩
        · exact hcur.tail ⟨f, hl, hd⟩

theorem collectDependencies_spec {fs : List Feature} {root : String} {fuel : Nat}
    (hfuel : (root :: depUniverse fs).length < fuel) :
    ∀ x, x ∈ (collectDependencies fs fuel root ([], [])).2 ↔ DepReach fs root x := by
  have hU : ∀ f ∈ fs, ∀ d ∈ f.dependencies, d ∈ root :: depUniverse fs := by
    intro f hf d hd
    exact List.mem_cons_of_mem _ (List.mem_flatMap.2 ⟨f, hf, hd⟩)
  have hef : ((root :: depUniverse fs).toFinset \ ([] : List String).toFinset).card < fuel := by
    apply lt_of_le_of_lt ?_ hfuel
    calc ((root :: depUniverse fs).toFinset \ ([] : List String).toFinset).card
        ≤ (root :: depUniverse fs).toFinset.card := Finset.card_le_card (Finset.sdiff_subset)
      _ ≤ (root :: depUniverse fs).length := (root :: depUniverse fs).toFinset_card_le
  obtain ⟨h1, h2, h3⟩ := collectDependencies_closed hU fuel root ([], [])
    (List.mem_cons_self _ _) hef (by simp)
  intro x
  constructor
  · intro hx
    exact collectDependencies_sound fuel root ([], []) (by simp) (Or.inl rfl) x hx
  · intro hx
    suffices H : x ∈ (collectDependencies fs fuel root ([], [])).2 ∧
        x ∈ (collectDependencies fs fuel root ([], [])).1 from H.1
    induction hx with
    | single h0 =>
      obtain ⟨f, hlf, hdf⟩ := h0
      exact h3 root h1 (by simp) f hlf _ hdf
    | tail hb hbc ihx =>
      obtain ⟨f, hlf, hdf⟩ := hbc
      exact h3 _ ihx.2 (by simp) f hlf _ hdf

theorem getAllDependencies_mem (featureId : String) (allFeatures : List Feature) (x : String) :
    x ∈ getAllDependencies featureId allFeatures ↔ DepReach allFeatures featureId x := by
  rw [getAllDependencies]
  exact collectDependencies_spec (by omega) x

theorem collectDependentsList_mono
    (collect : String → List String × List String → List String × List String)
    (hc : ∀ d st, st.1 ⊆ (collect d st).1 ∧ st.2 ⊆ (collect d st).2) (targetId : String) :
    ∀ (rem : List Feature) (st : List String × List String),
      st.1 ⊆ (collectDependentsList collect targetId rem st).1 ∧
        st.2 ⊆ (collectDependentsList collect targetId rem st).2 := by
  intro rem
  induction rem with
  | nil => intro st; exact ⟨List.Subset.refl _, List.Subset.refl _⟩
  | cons f rest ih =>
    intro st
    simp only [collectDependentsList]
    by_cases hf : targetId ∈ f.dependencies ∧ f.id ∉ st.2
    · rw [if_pos hf]
      obtain ⟨h1, h2⟩ := hc f.id (st.1, f.id :: st.2)
      obtain ⟨h3, h4⟩ := ih (collect f.id (st.1, f.id :: st.2))
      exact ⟨h1.trans h3, ((List.subset_cons_self f.id st.2).trans h2).trans h4⟩
    · rw [if_neg hf]; exact ih st

theorem collectDependents_mono (fs : List Feature) :
    ∀ (fuel : Nat) (cur : String) (st : List String × List String),
      st.1 ⊆ (collectDependents fs fuel cur st).1 ∧
        st.2 ⊆ (collectDependents fs fuel cur st).2 := by
  intro fuel
  induction fuel with
  | zero => intro cur st; exact ⟨List.Subset.refl _, List.Subset.refl _⟩
  | succ n ih =>
    intro cur st
    simp only [collectDependents]
    by_cases hv : cur ∈ st.1
    · rw [if_pos hv]; exact ⟨List.Subset.refl _, List.Subset.refl _⟩
    · rw [if_neg hv]
      have h0 := collectDependentsList_mono (collectDependents fs n)
        (fun d st => ih d st) cur fs (cur :: st.1, st.2)
      exact ⟨(List.subset_cons_self _ _).trans h0.1, h0.2⟩

theorem dependentsClosed_mono {fs : List Feature} {st st2 : List String × List String}
    {u : String} (h : dependentsClosed fs st u) (h1 : st.1 ⊆ st2.1) (h2 : st.2 ⊆ st2.2) :
    dependentsClosed fs st2 u := by
  intro f hf hd
  obtain ⟨ha, hb⟩ := h f hf hd
  exact ⟨h2 ha, h1 hb⟩

theorem collectDependents_closed {fs : List Feature} {U : List String}
    (hU : ∀ f ∈ fs, f.id ∈ U) :
    ∀ (fuel : Nat) (cur : String) (st : List String × List String),
      cur ∈ U →
      (U.toFinset \ st.1.toFinset).card < fuel →
      (∀ x ∈ st.2, x ∈ st.1 ∨ x = cur) →
      cur ∈ (collectDependents fs fuel cur st).1 ∧
        (∀ x ∈ (collectDependents fs fuel cur st).2,
          x ∈ (collectDependents fs fuel cur st).1) ∧
        (∀ u ∈ (collectDependents fs fuel cur st).1, u ∉ st.1 →
          dependentsClosed fs (collectDependents fs fuel cur st) u) := by
  intro fuel
  induction fuel with
  | zero =>
    intro cur st _ hef _
    exact absurd hef (by omega)
  | succ n ih =>
    have hlist : ∀ (rem : List Feature) (targetId : String) (st : List String × List String),
        (∀ f ∈ rem, f.id ∈ U) →
        (U.toFinset \ st.1.toFinset).card < n →
        (∀ x ∈ st.2, x ∈ st.1) →
        (∀ f ∈ rem, targetId ∈ f.dependencies →
            f.id ∈ (collectDependentsList (collectDependents fs n) targetId rem st).2 ∧
              f.id ∈ (collectDependentsList (collectDependents fs n) targetId rem st).1) ∧
          (∀ x ∈ (collectDependentsList (collectDependents fs n) targetId rem st).2,
            x ∈ (collectDependentsList (collectDependents fs n) targetId rem st).1) ∧
          (∀ u ∈ (collectDependentsList (collectDependents fs n) targetId rem st).1, u ∉ st.1 →
            dependentsClosed fs (collectDependentsList (collectDependents fs n) targetId rem st)
              u) := by
      intro rem
      induction rem with
      | nil =>
        intro targetId st _ _ hDV
        refine ⟨by simp, ?_, ?_⟩
        · intro x hx; exact hDV x hx
        · intro u hu hnu
          exact absurd hu hnu
      | cons g rest ihl =>
        intro targetId st hrem hef hDV
        simp only [collectDependentsList]
        by_cases hg : targetId ∈ g.dependencies ∧ g.id ∉ st.2
        · rw [if_pos hg]
          have hnode := ih g.id (st.1, g.id :: st.2) (hrem g (List.mem_cons_self _ _)) hef
            (by
              intro x hx
              rcases List.mem_cons.1 hx with rfl | hx
              · exact Or.inr rfl
              · exact Or.inl (hDV x hx))
          obtain ⟨hn1, hn2, hn3⟩ := hnode
          have hmonoc := collectDependents_mono fs n g.id (st.1, g.id :: st.2)
          have hefc : (U.toFinset \
              (collectDependents fs n g.id (st.1, g.id :: st.2)).1.toFinset).card < n := by
            apply lt_of_le_of_lt ?_ hef
            apply Finset.card_le_card
            apply Finset.sdiff_subset_sdiff (Finset.Subset.refl _)
            intro x hx
            rw [List.mem_toFinset] at hx ⊢
            exact hmonoc.1 hx
          obtain ⟨hl1, hl2, hl3⟩ := ihl targetId (collectDependents fs n g.id (st.1, g.id :: st.2))
            (fun x hx => hrem x (List.mem_cons_of_mem _ hx)) hefc hn2
          have hmonoL := collectDependentsList_mono (collectDependents fs n)
            (fun c st0 => collectDependents_mono fs n c st0) targetId rest
            (collectDependents fs n g.id (st.1, g.id :: st.2))
          refine ⟨?_, hl2, ?_⟩
          · intro f2 hf2 htg2
            rcases List.mem_cons.1 hf2 with rfl | hf2
            · exact ⟨hmonoL.2 (hmonoc.2 (List.mem_cons_self _ _)), hmonoL.1 hn1⟩
            · exact hl1 f2 hf2 htg2
          · intro u hu hnu
            by_cases huc : u ∈ (collectDependents fs n g.id (st.1, g.id :: st.2)).1
            · exact dependentsClosed_mono (hn3 u huc hnu) hmonoL.1 hmonoL.2
            · exact hl3 u hu huc
        · rw [if_neg hg]
          obtain ⟨hl1, hl2, hl3⟩ := ihl targetId st
            (fun x hx => hrem x (List.mem_cons_of_mem _ hx)) hef hDV
          have hmono := collectDependentsList_mono (collectDependents fs n)
            (fun c st0 => collectDependents_mono fs n c st0) targetId rest st
          refine ⟨?_, hl2, hl3⟩
          intro f2 hf2 htg2
          rcases List.mem_cons.1 hf2 with rfl | hf2
          · have hgid : f2.id ∈ st.2 := by
              by_contra h0
              exact hg ⟨htg2, h0⟩
            exact ⟨hmono.2 hgid, hmono.1 (hDV f2.id hgid)⟩
          · exact hl1 f2 hf2 htg2
    intro cur st hcur hef hDVc
    simp only [collectDependents]
    by_cases hv : cur ∈ st.1
    · rw [if_pos hv]
      refine ⟨hv, ?_, ?_⟩
      · intro x hx
        rcases hDVc x hx with h0 | rfl
        · exact h0
        · exact hv
      · intro u hu hnu
        exact absurd hu hnu
    · rw [if_neg hv]
      have hcard : (U.toFinset \ (cur :: st.1).toFinset).card <
          (U.toFinset \ st.1.toFinset).card := by
        apply Finset.card_lt_card
        rw [Finset.ssubset_def]
        constructor
        · intro x hx
          simp only [Finset.mem_sdiff, List.mem_toFinset, List.mem_cons, not_or] at hx
          simp only [Finset.mem_sdiff, List.mem_toFinset]
          exact ⟨hx.1, hx.2.2⟩
        · intro hcon
          have h1 : cur ∈ U.toFinset \ st.1.toFinset := by
            simp only [Finset.mem_sdiff, List.mem_toFinset]
            exact ⟨hcur, hv⟩
          have h2 := hcon h1
          simp only [Finset.mem_sdiff, List.mem_toFinset, List.mem_cons] at h2
          exact h2.2 (Or.inl trivial)
      have hefc : (U.toFinset \ (cur :: st.1).toFinset).card < n := by omega
      obtain ⟨hl1, hl2, hl3⟩ := hlist fs cur (cur :: st.1, st.2) (fun f hf => hU f hf) hefc
        (by
          intro x hx
          rcases hDVc x hx with h0 | rfl
          · exact List.mem_cons_of_mem _ h0
          · exact List.mem_cons_self _ _)
      have hmonoL := collectDependentsList_mono (collectDependents fs n)
        (fun c st0 => collectDependents_mono fs n c st0) cur fs (cur :: st.1, st.2)
      refine ⟨hmonoL.1 (List.mem_cons_self _ _), hl2, ?_⟩
      intro u hu hnu
      by_cases huc : u = cur
      · subst huc
        intro f2 hf2 htg2
        exact hl1 f2 hf2 htg2
      · apply hl3 u hu
        intro h0
        rcases List.mem_cons.1 h0 with h1 | h1
        · exact huc h1
        · exact hnu h1

theorem collectDependents_sound {fs : List Feature} {root : String} :
    ∀ (fuel : Nat) (cur : String) (st : List String × List String),
      (∀ x ∈ st.2, Relation.TransGen (depEdgeAny fs) x root) →
      (cur = root ∨ Relation.TransGen (depEdgeAny fs) cur root) →
      ∀ x ∈ (collectDependents fs fuel cur st).2,
        Relation.TransGen (depEdgeAny fs) x root := by
  intro fuel
  induction fuel with
  | zero => intro cur st hD _ x hx; exact hD x hx
  | succ n ih =>
    have hlist : ∀ (rem : List Feature) (targetId : String) (st : List String × List String),
        (∀ x ∈ st.2, Relation.TransGen (depEdgeAny fs) x root) →
        (∀ f ∈ rem, f ∈ fs) →
        (targetId = root ∨ Relation.TransGen (depEdgeAny fs) targetId root) →
        ∀ x ∈ (collectDependentsList (collectDependents fs n) targetId rem st).2,
          Relation.TransGen (depEdgeAny fs) x root := by
      intro rem
      induction rem with
      | nil => intro targetId st hD _ _ x hx; exact hD x hx
      | cons g rest ihl =>
        intro targetId st hD hrem htg
        simp only [collectDependentsList]
        have hreach : targetId ∈ g.dependencies →
            Relation.TransGen (depEdgeAny fs) g.id root := by
          intro hdep
          have hedge : depEdgeAny fs g.id targetId :=
            ⟨g, hrem g (List.mem_cons_self _ _), rfl, hdep⟩
          rcases htg with rfl | htg
          · exact Relation.TransGen.single hedge
          · exact Relation.TransGen.head hedge htg
        by_cases hg : targetId ∈ g.dependencies ∧ g.id ∉ st.2
        · rw [if_pos hg]
          apply ihl targetId _ ?_ (fun x hx => hrem x (List.mem_cons_of_mem _ hx)) htg
          apply ih g.id (st.1, g.id :: st.2)
          · intro x hx
            rcases List.mem_cons.1 hx with rfl | hx
            · exact hreach hg.1
            · exact hD x hx
          · exact Or.inr (hreach hg.1)
        · rw [if_neg hg]
          exact ihl targetId st hD (fun x hx => hrem x (List.mem_cons_of_mem _ hx)) htg
    intro cur st hD hcur
    simp only [collectDependents]
    by_cases hv : cur ∈ st.1
    · rw [if_pos hv]; exact hD
    · rw [if_neg hv]
      exact hlist fs cur (cur :: st.1, st.2) hD (fun f hf => hf) hcur

theorem collectDependents_spec {fs : List Feature} {root : String} {fuel : Nat}
    (hfuel : (root :: fs.map Feature.id).length < fuel) :
    ∀ x, x ∈ (collectDependents fs fuel root ([], [])).2 ↔
      Relation.TransGen (depEdgeAny fs) x root := by
  have hU : ∀ f ∈ fs, f.id ∈ root :: fs.map Feature.id := by
    intro f hf
    exact List.mem_cons_of_mem _ (List.mem_map_of_mem Feature.id hf)
  have hef : ((root :: fs.map Feature.id).toFinset \ ([] : List String).toFinset).card <
      fuel := by
    apply lt_of_le_of_lt ?_ hfuel
    calc ((root :: fs.map Feature.id).toFinset \ ([] : List String).toFinset).card
        ≤ (root :: fs.map Feature.id).toFinset.card :=
          Finset.card_le_card (Finset.sdiff_subset)
      _ ≤ (root :: fs.map Feature.id).length := (root :: fs.map Feature.id).toFinset_card_le
  obtain ⟨h1, h2, h3⟩ := collectDependents_closed hU fuel root ([], [])
    (List.mem_cons_self _ _) hef (by simp)
  intro x
  constructor
  · intro hx
    exact collectDependents_sound fuel root ([], []) (by simp) (Or.inl rfl) x hx
  · intro hx
    suffices H : x ∈ (collectDependents fs fuel root ([], [])).2 ∧
        x ∈ (collectDependents fs fuel root ([], [])).1 from H.1
    induction hx using Relation.TransGen.head_induction_on with
    | base h0 =>
      obtain ⟨f, hf, hfid, hdep⟩ := h0
      exact hfid ▸ h3 root h1 (by simp) f hf hdep
    | ih h0 hrest ihx =>
      obtain ⟨f, hf, hfid, hdep⟩ := h0
      exact hfid ▸ h3 _ ihx.2 (by simp) f hf hdep

theorem getAllDependents_mem (featureId : String) (allFeatures : List Feature) (x : String) :
    x ∈ getAllDependents featureId allFeatures ↔
      Relation.TransGen (depEdgeAny allFeatures) x featureId := by
  rw [getAllDependents]
  exact collectDependents_spec (by omega) x

theorem depEdge_iff_any {fs : List Feature} (hnd : (fs.map Feature.id).Nodup) (u v : String) :
    depEdge fs u v ↔ depEdgeAny fs u v := by
  constructor
  · rintro ⟨f, hl, hv⟩
    obtain ⟨hmem, hid⟩ := featureLookup_some hl
    exact ⟨f, hmem, hid, hv⟩
  · rintro ⟨f, hmem, rfl, hv⟩
    exact ⟨f, featureLookup_nodup hnd hmem, hv⟩

theorem runDispatchList_const {oracle : String → DispatchOutcome} :
    ∀ (l : List Feature) (st : SchedulerState),
      (runDispatchList oracle l st).1.concurrencyLimit = st.concurrencyLimit ∧
        (runDispatchList oracle l st).1.enabled = st.enabled := by
  intro l
  induction l with
  | nil => intro st; exact ⟨rfl, rfl⟩
  | cons f rest ih =>
    intro st
    simp only [runDispatchList]
    cases oracle f.id with
    | ok => exact ih _
    | storeThrow => exact ih _
    | runnerThrow => exact ih _

theorem runDispatchList_bound {oracle : String → DispatchOutcome} {k : Nat} :
    ∀ (l : List Feature) (st : SchedulerState),
      st.activeSet.length + l.length ≤ k →
      (runDispatchList oracle l st).1.activeSet.length ≤ k ∧
        ∀ s ∈ (runDispatchList oracle l st).2, s.activeSet.length ≤ k := by
  intro l
  induction l with
  | nil =>
    intro st h
    simp only [runDispatchList]
    exact ⟨by simpa using h, by simp⟩
  | cons f rest ih =>
    intro st h
    simp only [List.length_cons] at h
    simp only [runDispatchList]
    cases oracle f.id with
    | ok =>
      have hb : (f.id :: st.activeSet).length + rest.length ≤ k := by
        simp only [List.length_cons]
        omega
      obtain ⟨h1, h2⟩ := ih { st with
        features := setStatus st.features f.id Status.in_progress,
        activeSet := f.id :: st.activeSet } hb
      refine ⟨h1, ?_⟩
      intro s hs
      rcases List.mem_cons.1 hs with rfl | hs
      · simp only [List.length_cons]
        omega
      · exact h2 s hs
    | storeThrow =>
      obtain ⟨h1, h2⟩ := ih st (by omega)
      refine ⟨h1, ?_⟩
      intro s hs
      rcases List.mem_cons.1 hs with rfl | hs
      · omega
      · exact h2 s hs
    | runnerThrow =>
      have herase : (f.id :: st.activeSet).erase f.id = st.activeSet :=
        List.erase_cons_head f.id st.activeSet
      have hb : ((f.id :: st.activeSet).erase f.id).length + rest.length ≤ k := by
        rw [herase]
        omega
      obtain ⟨h1, h2⟩ := ih { st with
        features := setStatus (setStatus st.features f.id Status.in_progress) f.id Status.backlog,
        activeSet := (f.id :: st.activeSet).erase f.id } hb
      refine ⟨h1, ?_⟩
      intro s hs
      rcases List.mem_cons.1 hs with rfl | hs
      · simp only [List.length_cons]
        omega
      · rcases List.mem_cons.1 hs with rfl | hs
        · simp only [herase]
          omega
        · exact h2 s hs

theorem schedulePass_bound (oracle : String → DispatchOutcome) {k : Nat}
    (st : SchedulerState) (hlim : st.concurrencyLimit = k) (hlen : st.activeSet.length ≤ k) :
    (schedulePass oracle st).1.concurrencyLimit = k ∧
      (schedulePass oracle st).1.activeSet.length ≤ k ∧
      ∀ s ∈ (schedulePass oracle st).2, s.activeSet.length ≤ k := by
  rw [schedulePass]
  by_cases he : st.enabled
  · rw [if_pos he]
    have hlist : st.activeSet.length + (dispatchList st).length ≤ k := by
      have h1 : (dispatchList st).length ≤ st.concurrencyLimit - st.activeSet.length := by
        rw [dispatchList]
        exact List.length_take_le _ _
      rw [hlim] at h1
      omega
    obtain ⟨h1, h2⟩ := runDispatchList_bound (dispatchList st) st hlist
    exact ⟨(runDispatchList_const (dispatchList st) st).1.trans hlim, h1, h2⟩
  · rw [if_neg he]
    exact ⟨hlim, hlen, by simp⟩

theorem applyTrigger_bound {k : Nat} {t : Trigger} {st : SchedulerState}
    (hfix : limitFixed k t) (hlim : st.concurrencyLimit = k)
    (hlen : st.activeSet.length ≤ k) :
    (applyTrigger t st).1.concurrencyLimit = k ∧
      (applyTrigger t st).1.activeSet.length ≤ k ∧
      ∀ s ∈ (applyTrigger t st).2, s.activeSet.length ≤ k := by
  cases t with
  | enable oracle =>
    obtain ⟨h1, h2, h3⟩ := schedulePass_bound oracle
      { st with enabled := true } hlim hlen
    refine ⟨h1, h2, ?_⟩
    intro s hs
    rcases List.mem_cons.1 hs with rfl | hs
    · exact hlen
    · exact h3 s hs
  | disable => exact ⟨hlim, hlen, by intro s hs; rcases List.mem_singleton.1 hs; exact hlen⟩
  | setConcurrency n oracle =>
    simp only [limitFixed] at hfix
    subst hfix
    simp only [applyTrigger]
    by_cases hn : 1 ≤ n
    · rw [if_pos hn]
      obtain ⟨h1, h2, h3⟩ := schedulePass_bound oracle
        { st with concurrencyLimit := n } rfl hlen
      refine ⟨h1, h2, ?_⟩
      intro s hs
      rcases List.mem_cons.1 hs with rfl | hs
      · exact hlen
      · exact h3 s hs
    · rw [if_neg hn]
      exact ⟨hlim, hlen, by intro s hs; rcases List.mem_singleton.1 hs; exact hlen⟩
  | statusChange i s0 oracle =>
    obtain ⟨h1, h2, h3⟩ := schedulePass_bound oracle
      { st with features := setStatus st.features i s0 } hlim hlen
    refine ⟨h1, h2, ?_⟩
    intro s hs
    rcases List.mem_cons.1 hs with rfl | hs
    · exact hlen
    · exact h3 s hs
  | sessionDone i success oracle =>
    have hl2 : (completeSession st i success).activeSet.length ≤ k := by
      simp only [completeSession]
      exact le_trans (st.activeSet.erase_sublist i).length_le hlen
    obtain ⟨h1, h2, h3⟩ := schedulePass_bound oracle
      (completeSession st i success) hlim hl2
    refine ⟨h1, h2, ?_⟩
    intro s hs
    rcases List.mem_cons.1 hs with rfl | hs
    · exact hl2
    · exact h3 s hs

theorem runTriggers_bound {k : Nat} :
    ∀ (ts : List Trigger) (st : SchedulerState),
      (∀ t ∈ ts, limitFixed k t) →
      st.concurrencyLimit = k → st.activeSet.length ≤ k →
      ∀ s ∈ (runTriggers ts st).2, s.activeSet.length ≤ k := by
  intro ts
  induction ts with
  | nil =>
    intro st _ _ hlen s hs
    rcases List.mem_singleton.1 hs; exact hlen
  | cons t rest ih =>
    intro st hfix hlim hlen s hs
    obtain ⟨h1, h2, h3⟩ := applyTrigger_bound (hfix t (List.mem_cons_self _ _)) hlim hlen
    simp only [runTriggers] at hs
    rcases List.mem_cons.1 hs with rfl | hs
    · exact hlen
    · rcases List.mem_append.1 hs with hs | hs
      · exact h3 s hs
      · exact ih _ (fun t2 ht2 => hfix t2 (List.mem_cons_of_mem _ ht2)) h1 h2 s hs

theorem setConcurrency_reduce (st : SchedulerState) (n : Nat)
    (oracle : String → DispatchOutcome) (h1 : 1 ≤ n) (h2 : n ≤ st.activeSet.length) :
    applyTrigger (.setConcurrency n oracle) st =
      ({ st with concurrencyLimit := n }, [{ st with concurrencyLimit := n }]) := by
  simp only [applyTrigger, if_pos h1]
  have hpass : schedulePass oracle { st with concurrencyLimit := n } =
      ({ st with concurrencyLimit := n }, []) := by
    rw [schedulePass]
    by_cases he : ({ st with concurrencyLimit := n } : SchedulerState).enabled
    · rw [if_pos he]
      have hempty : dispatchList { st with concurrencyLimit := n } = [] := by
        rw [dispatchList]
        have : n - ({ st with concurrencyLimit := n } : SchedulerState).activeSet.length = 0 :=
          Nat.sub_eq_zero_of_le h2
        simp only at this ⊢
        rw [this]
        exact List.take_zero _
      rw [hempty]
      rfl
    · rw [if_neg he]
  rw [hpass]

theorem featureLookup_map_id_preserving {h : Feature → Feature}
    (hid : ∀ f, (h f).id = f.id) :
    ∀ (fs : List Feature) (x : String),
      featureLookup (fs.map h) x = (featureLookup fs x).map h := by
  intro fs x
  unfold featureLookup
  rw [List.foldl_map]
  suffices H : ∀ acc : Option Feature,
      fs.foldl (fun a f => if (h f).id = x then some (h f) else a) (acc.map h) =
        (fs.foldl (fun a f => if f.id = x then some f else a) acc).map h by
    exact H none
  induction fs with
  | nil => intro acc; rfl
  | cons g gs ih =>
    intro acc
    simp only [List.foldl_cons]
    by_cases hg : g.id = x
    · rw [if_pos ((hid g).trans hg), if_pos hg]
      have : (some (h g) : Option Feature) = (some g).map h := rfl
      rw [this]
      exact ih (some g)
    · rw [if_neg (fun h0 => hg ((hid g).symm.trans h0)), if_neg hg]
      exact ih acc

theorem featureLookup_setStatus (fs : List Feature) (i : String) (s : Status) (x : String) :
    featureLookup (setStatus fs i s) x =
      (featureLookup fs x).map fun f => if f.id = i then { f with status := s } else f := by
  apply featureLookup_map_id_preserving
  intro f
  by_cases h : f.id = i
  · rw [if_pos h]
  · rw [if_neg h]

theorem featureLookup_setStatus_ne {fs : List Feature} {i x : String} (s : Status)
    (hne : x ≠ i) : featureLookup (setStatus fs i s) x = featureLookup fs x := by
  rw [featureLookup_setStatus]
  cases hl : featureLookup fs x with
  | none => rfl
  | some f =>
    obtain ⟨_, hid⟩ := featureLookup_some hl
    simp only [Option.map_some']
    rw [if_neg (fun h0 => hne (hid ▸ h0))]

theorem featureLookup_setStatus_self (fs : List Feature) {i : String} {f : Feature}
    (s : Status) (hl : featureLookup fs i = some f) :
    featureLookup (setStatus fs i s) i = some { f with status := s } := by
  rw [featureLookup_setStatus, hl]
  obtain ⟨_, hid⟩ := featureLookup_some hl
  simp only [Option.map_some']
  rw [if_pos hid]

theorem feature_eta_status {f : Feature} {s : Status} (h : f.status = s) :
    { f with status := s } = f := by
  cases f
  cases h
  rfl

theorem insertOrdered_perm (f : Feature) :
    ∀ l : List Feature, (insertOrdered f l).Perm (f :: l) := by
  intro l
  induction l with
  | nil => exact List.Perm.refl _
  | cons g gs ih =>
    simp only [insertOrdered]
    by_cases hg : dispatchBefore g f = true
    · rw [if_pos hg]
      exact (List.Perm.cons g ih).trans (List.Perm.swap f g gs)
    · rw [if_neg hg]

theorem sortFeatures_perm : ∀ l : List Feature, (sortFeatures l).Perm l := by
  intro l
  induction l with
  | nil => exact List.Perm.refl _
  | cons f gs ih =>
    simp only [sortFeatures]
    exact (insertOrdered_perm f (sortFeatures gs)).trans (List.Perm.cons f ih)

theorem dispatchList_mem {st : SchedulerState} {f : Feature} (h : f ∈ dispatchList st) :
    f ∈ st.features ∧ eligible st f = true := by
  rw [dispatchList] at h
  have h1 : f ∈ sortFeatures (st.features.filter (eligible st)) := List.mem_of_mem_take h
  have h2 : f ∈ st.features.filter (eligible st) :=
    (sortFeatures_perm _).mem_iff.1 h1
  exact ⟨List.mem_of_mem_filter h2, List.of_mem_filter h2⟩

theorem eligible_iff (st : SchedulerState) (f : Feature) :
    eligible st f = true ↔
      f.status = Status.backlog ∧ (∀ d ∈ f.dependencies, depSatisfied st.features d = true) ∧
        f.id ∉ st.activeSet := by
  rw [eligible]
  simp only [Bool.and_eq_true, decide_eq_true_eq, List.all_eq_true]
  constructor
  · rintro ⟨⟨h1, h2⟩, h3⟩
    exact ⟨h1, h2, h3⟩
  · rintro ⟨h1, h2, h3⟩
    exact ⟨⟨h1, h2⟩, h3⟩

theorem dispatchList_ids_nodup {st : SchedulerState}
    (hnd : (st.features.map Feature.id).Nodup) :
    ((dispatchList st).map Feature.id).Nodup := by
  have h1 : ((st.features.filter (eligible st)).map Feature.id).Nodup :=
    ((List.filter_sublist st.features).map Feature.id).nodup hnd
  have h2 : ((sortFeatures (st.features.filter (eligible st))).map Feature.id).Nodup :=
    ((sortFeatures_perm _).map Feature.id).nodup_iff.2 h1
  have h3 := (List.take_sublist (st.concurrencyLimit - st.activeSet.length)
    (sortFeatures (st.features.filter (eligible st)))).map Feature.id
  exact h3.nodup h2

theorem runDispatchList_untouched (oracle : String → DispatchOutcome) :
    ∀ (l : List Feature) (st : SchedulerState) (x : String),
      (∀ g ∈ l, g.id ≠ x) →
      featureLookup (runDispatchList oracle l st).1.features x = featureLookup st.features x ∧
        (x ∈ (runDispatchList oracle l st).1.activeSet ↔ x ∈ st.activeSet) := by
  intro l
  induction l with
  | nil => intro st x _; exact ⟨rfl, Iff.rfl⟩
  | cons f rest ih =>
    intro st x hne
    have hfx : f.id ≠ x := hne f (List.mem_cons_self _ _)
    have hxf : x ≠ f.id := fun h0 => hfx h0.symm
    have hrest : ∀ g ∈ rest, g.id ≠ x := fun g hg => hne g (List.mem_cons_of_mem _ hg)
    simp only [runDispatchList]
    cases oracle f.id with
    | ok =>
      obtain ⟨h1, h2⟩ := ih { st with
        features := setStatus st.features f.id Status.in_progress,
        activeSet := f.id :: st.activeSet } x hrest
      refine ⟨?_, ?_⟩
      · rw [h1]
        exact featureLookup_setStatus_ne _ hxf
      · rw [h2]
        simp only [List.mem_cons]
        constructor
        · rintro (h0 | h0)
          · exact absurd h0.symm hfx
          · exact h0
        · exact Or.inr
    | storeThrow => exact ih st x hrest
    | runnerThrow =>
      obtain ⟨h1, h2⟩ := ih { st with
        features := setStatus (setStatus st.features f.id Status.in_progress) f.id Status.backlog,
        activeSet := (f.id :: st.activeSet).erase f.id } x hrest
      refine ⟨?_, ?_⟩
      · rw [h1, featureLookup_setStatus_ne _ hxf, featureLookup_setStatus_ne _ hxf]
      · rw [h2]
        rw [List.erase_cons_head]

theorem runDispatchList_effects (oracle : String → DispatchOutcome) :
    ∀ (l : List Feature) (st : SchedulerState),
      (l.map Feature.id).Nodup →
      (∀ g ∈ l, g.id ∉ st.activeSet) →
      ∀ g ∈ l,
        (oracle g.id = DispatchOutcome.ok →
          g.id ∈ (runDispatchList oracle l st).1.activeSet ∧
            featureLookup (runDispatchList oracle l st).1.features g.id =
              (featureLookup st.features g.id).map
                fun f => { f with status := Status.in_progress }) ∧
        (oracle g.id ≠ DispatchOutcome.ok →
          g.id ∉ (runDispatchList oracle l st).1.activeSet ∧
            ∀ f0, featureLookup st.features g.id = some f0 → f0.status = Status.backlog →
              featureLookup (runDispatchList oracle l st).1.features g.id = some f0) := by
  intro l
  induction l with
  | nil => intro st _ _ g hg; cases hg
  | cons f rest ih =>
    intro st hnd hact g hg
    have hndr : (rest.map Feature.id).Nodup := (List.nodup_cons.1 (by simpa using hnd)).2
    have hfrest : ∀ g2 ∈ rest, g2.id ≠ f.id := by
      intro g2 hg2 h0
      exact (List.nodup_cons.1 (by simpa using hnd)).1 (h0 ▸ List.mem_map_of_mem Feature.id hg2)
    rcases List.mem_cons.1 hg with rfl | hgr
    · -- g is the head being dispatched now
      simp only [runDispatchList]
      cases ho : oracle g.id with
      | ok =>
        simp only []
        obtain ⟨hu1, hu2⟩ := runDispatchList_untouched oracle rest { st with
          features := setStatus st.features g.id Status.in_progress,
          activeSet := g.id :: st.activeSet } g.id hfrest
        constructor
        · intro _
          refine ⟨hu2.2 (List.mem_cons_self _ _), ?_⟩
          rw [hu1]
          show featureLookup (setStatus st.features g.id Status.in_progress) g.id = _
          rw [featureLookup_setStatus]
          cases hl : featureLookup st.features g.id with
          | none => rfl
          | some f0 =>
            obtain ⟨_, hid⟩ := featureLookup_some hl
            simp only [Option.map_some']
            rw [if_pos hid]
        · intro hcon
          exact absurd rfl hcon
      | storeThrow =>
        simp only []
        obtain ⟨hu1, hu2⟩ := runDispatchList_untouched oracle rest st g.id hfrest
        constructor
        · intro hcon
          cases hcon
        · intro _
          refine ⟨fun h0 => hact g (List.mem_cons_self _ _) (hu2.1 h0), ?_⟩
          intro f0 hl0 _
          rw [hu1, hl0]
      | runnerThrow =>
        simp only []
        obtain ⟨hu1, hu2⟩ := runDispatchList_untouched oracle rest { st with
          features := setStatus (setStatus st.features g.id Status.in_progress) g.id
            Status.backlog,
          activeSet := (g.id :: st.activeSet).erase g.id } g.id hfrest
        constructor
        · intro hcon
          cases hcon
        · intro _
          constructor
          · intro h0
            have h1 := hu2.1 h0
            simp only [List.erase_cons_head] at h1
            exact hact g (List.mem_cons_self _ _) h1
          · intro f0 hl0 hst0
            rw [hu1]
            have h2 := featureLookup_setStatus_self st.features Status.in_progress hl0
            have h3 := featureLookup_setStatus_self
              (setStatus st.features g.id Status.in_progress) Status.backlog h2
            show featureLookup
              (setStatus (setStatus st.features g.id Status.in_progress) g.id Status.backlog)
                g.id = some f0
            rw [h3]
            congr 1
            exact feature_eta_status hst0
    · -- g is dispatched later in the pass
      simp only [runDispatchList]
      have hgf : g.id ≠ f.id := hfrest g hgr
      cases ho : oracle f.id with
      | ok =>
        simp only []
        have hacts : ∀ g2 ∈ rest, g2.id ∉ (f.id :: st.activeSet) := by
          intro g2 hg2
          simp only [List.mem_cons]
          rintro (h0 | h0)
          · exact hfrest g2 hg2 h0
          · exact hact g2 (List.mem_cons_of_mem _ hg2) h0
        have hres := ih { st with
          features := setStatus st.features f.id Status.in_progress,
          activeSet := f.id :: st.activeSet } hndr hacts g hgr
        have hlook : featureLookup (setStatus st.features f.id Status.in_progress) g.id =
            featureLookup st.features g.id := featureLookup_setStatus_ne _ hgf
        constructor
        · intro hok
          obtain ⟨ha, hb⟩ := hres.1 hok
          exact ⟨ha, by rw [hb, hlook]⟩
        · intro hnok
          obtain ⟨ha, hb⟩ := hres.2 hnok
          refine ⟨ha, ?_⟩
          intro f0 hl0 hst0
          exact hb f0 (by rw [hlook, hl0]) hst0
      | storeThrow =>
        simp only []
        exact ih st hndr (fun g2 hg2 => hact g2 (List.mem_cons_of_mem _ hg2)) g hgr
      | runnerThrow =>
        simp only []
        have hacts : ∀ g2 ∈ rest, g2.id ∉ (f.id :: st.activeSet).erase f.id := by
          intro g2 hg2
          rw [List.erase_cons_head]
          exact hact g2 (List.mem_cons_of_mem _ hg2)
        have hres := ih { st with
          features := setStatus (setStatus st.features f.id Status.in_progress) f.id
            Status.backlog,
          activeSet := (f.id :: st.activeSet).erase f.id } hndr hacts g hgr
        have hlook : featureLookup
            (setStatus (setStatus st.features f.id Status.in_progress) f.id Status.backlog)
              g.id = featureLookup st.features g.id := by
          rw [featureLookup_setStatus_ne _ hgf, featureLookup_setStatus_ne _ hgf]
        constructor
        · intro hok
          obtain ⟨ha, hb⟩ := hres.1 hok
          exact ⟨ha, by rw [hb, hlook]⟩
        · intro hnok
          obtain ⟨ha, hb⟩ := hres.2 hnok
          refine ⟨ha, ?_⟩
          intro f0 hl0 hst0
          exact hb f0 (by rw [hlook, hl0]) hst0

theorem schedulePass_skips_ineligible (oracle : String → DispatchOutcome)
    (st : SchedulerState) (hnd : (st.features.map Feature.id).Nodup) {f : Feature}
    (hf : f ∈ st.features) (hne : eligible st f = false) (hact : f.id ∉ st.activeSet) :
    featureLookup (schedulePass oracle st).1.features f.id = featureLookup st.features f.id ∧
      f.id ∉ (schedulePass oracle st).1.activeSet := by
  have hids : ∀ g ∈ dispatchList st, g.id ≠ f.id := by
    intro g hg h0
    obtain ⟨hgmem, hgel⟩ := dispatchList_mem hg
    have hgf : g = f := List.inj_on_of_nodup_map hnd hgmem hf h0
    rw [hgf, hne] at hgel
    cases hgel
  rw [schedulePass]
  by_cases he : st.enabled
  · rw [if_pos he]
    obtain ⟨h1, h2⟩ := runDispatchList_untouched oracle (dispatchList st) st f.id hids
    exact ⟨h1, fun h0 => hact (h2.1 h0)⟩
  · rw [if_neg he]
    exact ⟨rfl, hact⟩

theorem schedulePass_effects (oracle : String → DispatchOutcome) (st : SchedulerState)
    (hnd : (st.features.map Feature.id).Nodup) (he : st.enabled = true) :
    ∀ g ∈ dispatchList st,
      (oracle g.id = DispatchOutcome.ok →
        g.id ∈ (schedulePass oracle st).1.activeSet ∧
          featureLookup (schedulePass oracle st).1.features g.id =
            some { g with status := Status.in_progress }) ∧
      (oracle g.id ≠ DispatchOutcome.ok →
        g.id ∉ (schedulePass oracle st).1.activeSet ∧
          featureLookup (schedulePass oracle st).1.features g.id = some g) := by
  intro g hg
  obtain ⟨hgmem, hgel⟩ := dispatchList_mem hg
  obtain ⟨hstat, _, hact⟩ := (eligible_iff st g).1 hgel
  have hlook : featureLookup st.features g.id = some g := featureLookup_nodup hnd hgmem
  have hacts : ∀ g2 ∈ dispatchList st, g2.id ∉ st.activeSet := by
    intro g2 hg2
    obtain ⟨_, hgel2⟩ := dispatchList_mem hg2
    exact ((eligible_iff st g2).1 hgel2).2.2
  have heff := runDispatchList_effects oracle (dispatchList st) st (dispatchList_ids_nodup hnd)
    hacts g hg
  rw [schedulePass, if_pos he]
  constructor
  · intro hok
    obtain ⟨h1, h2⟩ := heff.1 hok
    refine ⟨h1, ?_⟩
    rw [h2, hlook]
    rfl
  · intro hnok
    obtain ⟨h1, h2⟩ := heff.2 hnok
    exact ⟨h1, h2 g hlook hstat⟩

theorem cex_proposedAcyclic (deps : List String) (hdeps : ∀ d ∈ deps, d = "B") :
    proposedAcyclic "A" deps cexFeatures := by
  have hedge : ∀ u v, proposedEdge "A" deps cexFeatures u v → u = "A" ∧ v = "B" := by
    intro u v h
    rw [proposedEdge] at h
    by_cases hu : u = "A"
    · rw [if_pos hu] at h
      exact ⟨hu, hdeps v h⟩
    · rw [if_neg hu] at h
      obtain ⟨f, hl, hv⟩ := h
      obtain ⟨hmem, _⟩ := featureLookup_some hl
      have hdep : f.dependencies = [] := by
        simp only [cexFeatures, List.mem_cons, List.mem_singleton] at hmem
        rcases hmem with rfl | rfl | hmem
        · rfl
        · rfl
        · cases hmem
      rw [hdep] at hv
      cases hv
  intro u hu
  have hAB : ∀ w z, Relation.TransGen (proposedEdge "A" deps cexFeatures) w z →
      w = "A" ∧ z = "B" := by
    intro w z h
    induction h with
    | single h0 => exact hedge _ _ h0
    | tail _ hlast ih => exact ⟨ih.1, (hedge _ _ hlast).2⟩
  obtain ⟨h1, h2⟩ := hAB u u hu
  rw [h1] at h2
  exact absurd h2 (by decide)

/-- C2 (amended): validateDependencies returns valid false for every
proposed list creating a cycle through the candidate of length one (self
reference), length two, or length N (a chain through the existing graph
back to the candidate), and returns valid true with an empty error list
whenever the resulting graph is a DAG and the proposed list contains no
duplicate entries. -/
theorem C2_cycle_rejection (c : String) (deps : List String) (fs : List Feature) :
    (c ∈ deps → (validateDependencies c deps fs).valid = false) ∧
      ((∃ d ∈ deps, DepReach fs d c) → (validateDependencies c deps fs).valid = false) ∧
      (c ∉ deps → deps.Nodup → proposedAcyclic c deps fs →
        validateDependencies c deps fs = { valid := true, errors := [] }) :=
  ⟨validate_false_of_self, validate_false_of_reach, validate_true_of_acyclic⟩

/-- Counterexample for C2 as frozen: candidate A with proposed list
[B, B] over two independent features yields a resulting graph that is a
DAG, yet validateDependencies returns valid false because of the duplicate
entries, so a DAG does not always produce valid true. -/
theorem C2_cycle_rejection_counterexample :
    (validateDependencies "A" ["B", "B"] cexFeatures).valid = false ∧
      "A" ∉ (["B", "B"] : List String) ∧ proposedAcyclic "A" ["B", "B"] cexFeatures :=
  ⟨by decide, by decide, cex_proposedAcyclic ["B", "B"] (by intro d hd; simpa using hd)⟩

/-- Witness for C2 at concrete inputs: a self cycle, a length-two cycle
through the stored edge from A to B, and an accepted DAG proposal. -/
theorem C2_cycle_rejection_witness :
    (validateDependencies "A" ["A"] cexFeatures).valid = false ∧
      (validateDependencies "B" ["A"] chainFeatures).valid = false ∧
      validateDependencies "A" ["B"] cexFeatures = { valid := true, errors := [] } :=
  ⟨(C2_cycle_rejection "A" ["A"] cexFeatures).1 (by decide),
   (C2_cycle_rejection "B" ["A"] chainFeatures).2.1
     ⟨"A", by decide,
       Relation.TransGen.single
         ⟨{ id := "A", dependencies := ["B"] }, by decide, by decide⟩⟩,
   (C2_cycle_rejection "A" ["B"] cexFeatures).2.2 (by decide) (by decide)
     (cex_proposedAcyclic ["B"] (by intro d hd; simpa using hd))⟩

/-- C3: validateDependencies reports valid false with the self-dependency
error exactly when the candidate appears in the proposed list, and valid
false with the duplicate error exactly when the proposed list has a
repeated entry; both errors are reported together on one call when both
conditions hold. -/
theorem C3_self_and_duplicate :
    (∀ (c : String) (deps : List String) (fs : List Feature),
        ((validateDependencies c deps fs).valid = false ∧
            selfDependencyError ∈ (validateDependencies c deps fs).errors ↔ c ∈ deps) ∧
          ((validateDependencies c deps fs).valid = false ∧
              duplicateDependencyError ∈ (validateDependencies c deps fs).errors ↔
            ¬deps.Nodup)) ∧
      selfDependencyError ∈ (validateDependencies "A" ["A", "B", "B"] cexFeatures).errors ∧
        duplicateDependencyError ∈
          (validateDependencies "A" ["A", "B", "B"] cexFeatures).errors := by
  refine ⟨?_, by decide, by decide⟩
  intro c deps fs
  refine ⟨⟨fun h => (selfErr_mem_iff c deps fs).1 h.2, fun h =>
    ⟨validate_false_of_self h, (selfErr_mem_iff c deps fs).2 h⟩⟩,
    ⟨fun h => (dupErr_mem_iff c deps fs).1 h.2, fun h => ⟨?_, (dupErr_mem_iff c deps fs).2 h⟩⟩⟩
  apply validate_false_of_errors_ne_nil
  intro h0
  have hmem := (dupErr_mem_iff c deps fs).2 h
  rw [h0] at hmem
  cases hmem

/-- Witness for C3: the backward directions at a concrete self-dependent
proposal. -/
theorem C3_self_and_duplicate_witness :
    (validateDependencies "A" ["A"] cexFeatures).valid = false ∧
      selfDependencyError ∈ (validateDependencies "A" ["A"] cexFeatures).errors :=
  ((C3_self_and_duplicate.1 "A" ["A"] cexFeatures).1).2 (by decide)

/-- C4: the depth-first cycle search terminates on every input, cyclic
stored graphs included: with the per-call visited set bounded by the
feature count its result is already stable at fuel allFeatures.length + 1,
larger fuels change nothing, and wouldCreateCircularDependency runs the
traversal at exactly that stable fuel. -/
theorem C4_traversal_termination :
    (∀ (fs : List Feature) (t s : String) (addl : List String) (fuel : Nat),
        fs.length + 1 ≤ fuel →
        hasPathBetweenFeatures fs t fuel s addl [] =
          hasPathBetweenFeatures fs t (fs.length + 1) s addl []) ∧
      ∀ (c d : String) (fs : List Feature) (e : List String),
        wouldCreateCircularDependency c d fs e =
          if c = d then true else hasPathBetweenFeatures fs c (fs.length + 1) d e [] :=
  ⟨fun _ _ _ _ _ h => hasPath_stable h, fun _ _ _ _ => rfl⟩

/-- Witness for C4 on a stored two-cycle: any surplus fuel computes the
same answer as the bound. -/
theorem C4_traversal_termination_witness :
    hasPathBetweenFeatures cyclicFeatures "A" 10 "B" [] [] =
      hasPathBetweenFeatures cyclicFeatures "A" 3 "B" [] [] :=
  C4_traversal_termination.1 cyclicFeatures "A" "B" [] 10 (by decide)

/-- C1: concurrency bound invariant, modelled from the spec: over every
trigger sequence whose limit changes all set the same value k, every
observed instant, intra-pass dispatch states included, has at most k
active sessions; and reducing the limit below the current active count
kills no session and dispatches nothing, changing only the limit field,
so the set simply drains below the new limit before new dispatch. -/
theorem C1_concurrency_bound :
    (∀ (k : Nat) (ts : List Trigger) (st0 : SchedulerState),
        (∀ t ∈ ts, limitFixed k t) → st0.concurrencyLimit = k →
        st0.activeSet.length ≤ k →
        ∀ s ∈ (runTriggers ts st0).2, s.activeSet.length ≤ k) ∧
      ∀ (st : SchedulerState) (n : Nat) (oracle : String → DispatchOutcome),
        1 ≤ n → n ≤ st.activeSet.length →
        applyTrigger (Trigger.setConcurrency n oracle) st =
          ({ st with concurrencyLimit := n }, [{ st with concurrencyLimit := n }]) :=
  ⟨fun _ ts st0 h1 h2 h3 => runTriggers_bound ts st0 h1 h2 h3, setConcurrency_reduce⟩

/-- Witness for C1: the drain-and-refill run at limit one, and a concrete
reduction of the limit below two active sessions. -/
theorem C1_concurrency_bound_witness :
    (∀ s ∈ (runTriggers drainTriggers drainInit).2, s.activeSet.length ≤ 1) ∧
      applyTrigger (Trigger.setConcurrency 1 okOracle)
          { enabled := true, concurrencyLimit := 3, activeSet := ["A", "B"],
            features := [] } =
        ({ enabled := true, concurrencyLimit := 1, activeSet := ["A", "B"], features := [] },
          [{ enabled := true, concurrencyLimit := 1, activeSet := ["A", "B"],
             features := [] }]) :=
  ⟨C1_concurrency_bound.1 1 drainTriggers drainInit
      (by
        intro t ht
        simp only [drainTriggers, List.mem_cons] at ht
        rcases ht with rfl | rfl | rfl | rfl | rfl | rfl | ht
        · exact trivial
        · exact trivial
        · exact trivial
        · exact trivial
        · exact trivial
        · exact trivial
        · cases ht)
      rfl (by decide),
    C1_concurrency_bound.2 _ 1 okOracle (by decide) (by decide)⟩

/-- C5: dependency ordering, modelled from the spec: a backlog feature is
eligible iff every listed dependency has status completed or verified
(vacuously for an empty list) and the feature is not already active; and a
feature with an unsatisfied dependency is never dispatched by a pass, its
stored record and its absence from the active set being preserved: it is
skipped, not failed. -/
theorem C5_dependency_ordering (st : SchedulerState) (oracle : String → DispatchOutcome)
    (f : Feature) :
    (eligible st f = true ↔
        f.status = Status.backlog ∧
          (∀ d ∈ f.dependencies, depSatisfied st.features d = true) ∧
          f.id ∉ st.activeSet) ∧
      ((st.features.map Feature.id).Nodup → f ∈ st.features →
        (∃ d ∈ f.dependencies, depSatisfied st.features d = false) →
        f.id ∉ st.activeSet →
        featureLookup (schedulePass oracle st).1.features f.id =
            featureLookup st.features f.id ∧
          f.id ∉ (schedulePass oracle st).1.activeSet) := by
  refine ⟨eligible_iff st f, ?_⟩
  intro hnd hf hunsat hact
  have hne : eligible st f = false := by
    cases heq : eligible st f
    · rfl
    · obtain ⟨_, hall, _⟩ := (eligible_iff st f).1 heq
      obtain ⟨d, hd, hfalse⟩ := hunsat
      rw [hall d hd] at hfalse
      cases hfalse
  exact schedulePass_skips_ineligible oracle st hnd hf hne hact

/-- Witness for C5: in the concrete board, a pass leaves the blocked
feature B untouched and inactive. -/
theorem C5_dependency_ordering_witness :
    featureLookup (schedulePass okOracle c5State).1.features "B" =
        featureLookup c5State.features "B" ∧
      "B" ∉ (schedulePass okOracle c5State).1.activeSet :=
  (C5_dependency_ordering c5State okOracle
      { id := "B", dependencies := ["A"], status := Status.backlog, createdAt := 2 }).2
    (by decide) (by decide) ⟨"A", by decide, by decide⟩ (by decide)

/-- C6: revert on dispatch error, modelled from the spec: a feature whose
store write or runner start throws finishes the pass with its original
backlog record and outside the active set, while another feature of the
same pass whose dispatch succeeds becomes active and in progress, so the
pass continues instead of aborting. -/
theorem C6_revert_on_dispatch_error (st : SchedulerState)
    (oracle : String → DispatchOutcome) (f g : Feature)
    (hnd : (st.features.map Feature.id).Nodup) (he : st.enabled = true)
    (hf : f ∈ dispatchList st) (hg : g ∈ dispatchList st)
    (hof : oracle f.id ≠ DispatchOutcome.ok) (hog : oracle g.id = DispatchOutcome.ok) :
    (f.status = Status.backlog ∧
        featureLookup (schedulePass oracle st).1.features f.id = some f ∧
        f.id ∉ (schedulePass oracle st).1.activeSet) ∧
      g.id ∈ (schedulePass oracle st).1.activeSet ∧
        featureLookup (schedulePass oracle st).1.features g.id =
          some { g with status := Status.in_progress } := by
  obtain ⟨h1, h2⟩ := (schedulePass_effects oracle st hnd he f hf).2 hof
  obtain ⟨h3, h4⟩ := (schedulePass_effects oracle st hnd he g hg).1 hog
  have hstat := ((eligible_iff st f).1 (dispatchList_mem hf).2).2.2
  have hstat2 := ((eligible_iff st f).1 (dispatchList_mem hf).2).1
  exact ⟨⟨hstat2, h2, h1⟩, h3, h4⟩

/-- Witness for C6: A is reverted to its backlog record and stays out of
the active set while B of the same pass is dispatched. -/
theorem C6_revert_on_dispatch_error_witness :
    (({ id := "A", status := Status.backlog, createdAt := 1 } : Feature).status =
          Status.backlog ∧
        featureLookup (schedulePass c6Oracle c6State).1.features "A" =
          some { id := "A", status := Status.backlog, createdAt := 1 } ∧
        "A" ∉ (schedulePass c6Oracle c6State).1.activeSet) ∧
      "B" ∈ (schedulePass c6Oracle c6State).1.activeSet ∧
        featureLookup (schedulePass c6Oracle c6State).1.features "B" =
          some { id := "B", status := Status.in_progress, createdAt := 2 } :=
  C6_revert_on_dispatch_error c6State c6Oracle
    { id := "A", status := Status.backlog, createdAt := 1 }
    { id := "B", status := Status.backlog, createdAt := 2 }
    (by decide) rfl (by decide) (by decide) (by decide) (by decide)

/-- C7: drain and refill, modelled from the spec, the literal scenario:
with concurrency limit one and five independent equal-priority backlog
features created in the order A, B, C, D, E, every observed instant has at
most one feature in progress and at most one active session; after auto
mode turns on A alone runs, and after each successful completion the next
feature in creation order alone runs, each finishing before the next
starts, until all five are waiting approval. -/
theorem C7_drain_and_refill :
    (∀ s ∈ (runTriggers drainTriggers drainInit).2,
        inProgressCount s ≤ 1 ∧ s.activeSet.length ≤ 1) ∧
      inProgressIds (runTriggers (drainTriggers.take 1) drainInit).1 = ["A"] ∧
      waitingIds (runTriggers (drainTriggers.take 1) drainInit).1 = [] ∧
      inProgressIds (runTriggers (drainTriggers.take 2) drainInit).1 = ["B"] ∧
      waitingIds (runTriggers (drainTriggers.take 2) drainInit).1 = ["A"] ∧
      inProgressIds (runTriggers (drainTriggers.take 3) drainInit).1 = ["C"] ∧
      waitingIds (runTriggers (drainTriggers.take 3) drainInit).1 = ["A", "B"] ∧
      inProgressIds (runTriggers (drainTriggers.take 4) drainInit).1 = ["D"] ∧
      waitingIds (runTriggers (drainTriggers.take 4) drainInit).1 = ["A", "B", "C"] ∧
      inProgressIds (runTriggers (drainTriggers.take 5) drainInit).1 = ["E"] ∧
      waitingIds (runTriggers (drainTriggers.take 5) drainInit).1 = ["A", "B", "C", "D"] ∧
      inProgressIds (runTriggers drainTriggers drainInit).1 = [] ∧
      waitingIds (runTriggers drainTriggers drainInit).1 = ["A", "B", "C", "D", "E"] := by
  decide

/-- C8: getAllDependencies returns exactly the ids reachable from the
feature through one or more dependency edges of the feature map, and
getAllDependents returns exactly the ids from which a dependency path
leads to the feature through the edges contributed by the stored records;
both walks are stable at the fuel their wrappers pass, so they terminate
with the same answer on every graph, cyclic ones included. -/
theorem C8_transitive_closures (allFeatures : List Feature) (i x : String) :
    (x ∈ getAllDependencies i allFeatures ↔ DepReach allFeatures i x) ∧
      (x ∈ getAllDependents i allFeatures ↔
        Relation.TransGen (depEdgeAny allFeatures) x i) ∧
      (∀ fuel, (i :: depUniverse allFeatures).length < fuel →
        (x ∈ (collectDependencies allFeatures fuel i ([], [])).2 ↔
          x ∈ getAllDependencies i allFeatures)) ∧
      ∀ fuel, (i :: allFeatures.map Feature.id).length < fuel →
        (x ∈ (collectDependents allFeatures fuel i ([], [])).2 ↔
          x ∈ getAllDependents i allFeatures) := by
  refine ⟨getAllDependencies_mem i allFeatures x, getAllDependents_mem i allFeatures x,
    ?_, ?_⟩
  · intro fuel hfuel
    rw [collectDependencies_spec hfuel x, getAllDependencies_mem]
  · intro fuel hfuel
    rw [collectDependents_spec hfuel x, getAllDependents_mem]

/-- Witness for C8 on the stored two-cycle: membership certifies a cyclic
reachability fact, and a surplus-fuel run agrees with the wrapper. -/
theorem C8_transitive_closures_witness :
    DepReach cyclicFeatures "A" "A" ∧ "B" ∈ getAllDependencies "A" cyclicFeatures :=
  ⟨(C8_transitive_closures cyclicFeatures "A" "A").1.1 (by decide),
   ((C8_transitive_closures cyclicFeatures "A" "B").2.2.1 10 (by decide)).1 (by decide)⟩

/-- C9: emit invokes every currently subscribed callback in order: with a
throwing subscriber anywhere in the list the result still holds one entry
per subscriber, the earlier results, the caught error, then the later
results, so the exception neither reaches the caller of emit nor prevents
later subscribers, unlike the catch-free reference iteration, which
aborts with that error. -/
theorem C9_emitter_isolation {E P : Type} (s1 s2 : List (E → P → Except String Unit))
    (cb : E → P → Except String Unit) (t : E) (p : P) (e : String)
    (hcb : cb t p = Except.error e) :
    emit (s1 ++ cb :: s2) t p = emit s1 t p ++ some e :: emit s2 t p ∧
      (emit (s1 ++ cb :: s2) t p).length = s1.length + 1 + s2.length ∧
      ((∀ cb2 ∈ s1, cb2 t p = Except.ok ()) →
        emitNoCatch (s1 ++ cb :: s2) t p = Except.error e) := by
  refine ⟨?_, ?_, ?_⟩
  · simp only [emit, List.map_append, List.map_cons, hcb]
  · simp only [emit, List.length_map, List.length_append, List.length_cons]
    omega
  · induction s1 with
    | nil =>
      intro _
      simp only [List.nil_append, emitNoCatch, hcb]
    | cons c rest ih =>
      intro hok
      simp only [List.cons_append, emitNoCatch]
      rw [hok c (List.mem_cons_self _ _)]
      exact ih (fun c2 hc2 => hok c2 (List.mem_cons_of_mem _ hc2))

/-- Witness for C9 with one succeeding subscriber on each side of a
throwing one. -/
theorem C9_emitter_isolation_witness :
    emit ([okSubscriber] ++ boomSubscriber :: [okSubscriber]) 0 0 =
      emit [okSubscriber] 0 0 ++ some "boom" :: emit [okSubscriber] 0 0 :=
  (C9_emitter_isolation [okSubscriber] [okSubscriber] boomSubscriber 0 0 "boom" rfl).1

/-- C10 (amended): on every feature list whose ids are pairwise distinct,
the keyed-by-id reading of a feature set, the two transitive-closure
queries compute converse relations, cyclic graphs included: a feature a
is among the dependents of a feature b exactly when b is among the
dependencies of a. -/
theorem C10_duality (allFeatures : List Feature)
    (hnd : (allFeatures.map Feature.id).Nodup) (a b : Feature)
    (_ha : a ∈ allFeatures) (_hb : b ∈ allFeatures) :
    a.id ∈ getAllDependents b.id allFeatures ↔
      b.id ∈ getAllDependencies a.id allFeatures := by
  rw [getAllDependents_mem, getAllDependencies_mem]
  constructor
  · intro h
    exact Relation.TransGen.mono (fun u v h0 => (depEdge_iff_any hnd u v).2 h0) h
  · intro h
    exact Relation.TransGen.mono (fun u v h0 => (depEdge_iff_any hnd u v).1 h0) h

/-- Counterexample for C10 as frozen: with two distinct features sharing
the id X, both present in the list, the X feature that depends on B is
among the dependents of B, yet B is not among the dependencies of X,
because the dependents walk reads every record while the dependencies
walk reads the map in which the last record with an id wins. -/
theorem C10_duality_counterexample :
    ({ id := "X", dependencies := ["B"] } : Feature) ∈ dupFeatures ∧
      ({ id := "B" } : Feature) ∈ dupFeatures ∧
      ({ id := "X", dependencies := ["B"] } : Feature).id ∈
        getAllDependents ({ id := "B" } : Feature).id dupFeatures ∧
      ({ id := "B" } : Feature).id ∉
        getAllDependencies ({ id := "X", dependencies := ["B"] } : Feature).id dupFeatures := by
  decide

/-- Witness for C10 on a two-feature chain with distinct ids. -/
theorem C10_duality_witness : "B" ∈ getAllDependencies "A" chainFeatures :=
  (C10_duality chainFeatures (by decide) { id := "A", dependencies := ["B"] } { id := "B" }
    (by decide) (by decide)).1 (by decide)

end Orchestrator
